import Mathlib

/-!
Verification of the `yumy` diagnostic renderer.

A shallow embedding, at byte granularity, of the diagnostic-rendering
pipeline: source indexing (`src/source.rs`), the label sweep
(`src/diagnostic/body/builder.rs`), the slot-allocating body writer
(`src/diagnostic/body/writer.rs`), the text-width utilities
(`src/text.rs`) and the full-layout entry point (`src/diagnostic.rs`).

Modelling conventions:
* Source text is a `List Char`, one entry per byte; byte offsets are
  list indices.  All the algorithms are offset-generic; multi-byte
  UTF-8 only affects the external width/segmentation crates, which are
  modelled separately at grapheme granularity for the width claims.
* Machine integers (`u32`, `usize`) are `Nat`; every place where the
  Rust code can panic (assert, expect, unwrap, arithmetic underflow,
  out-of-range slicing, unreachable slot overflow) is modelled with
  `Option`/`Except`, a `none`/`.error` result standing for the panic.
* ANSI styling (`owo_colors`) is an external collaborator; `Style`
  application is modelled as the identity on text, matching the
  "clean" output of the repository's own snapshot tests.
-/

namespace Yumy

/-- `u32::MAX`, the value `nonmax::NonMaxU32` cannot represent. -/
def U32_MAX : ℕ := 4294967295

/-! Text-width utilities, `src/text.rs`. -/

/-- A grapheme cluster of the external `unicode_segmentation` crate,
as its list of Unicode scalar values. -/
abbrev Grapheme := List Char

/-- `src/text.rs`: the `TAB` constant. -/
def TAB : Grapheme := ['\t']

/-- The U+200D zero-width-joiner scalar. -/
def ZWJ_CHAR : Char := Char.ofNat 0x200d

/-- `src/text.rs`: the `ZERO_WIDTH_JOINER` constant. -/
def ZERO_WIDTH_JOINER : Grapheme := [ZWJ_CHAR]

/-- `src/text.rs`: the `VARIATION_SELECTOR_16` constant. -/
def VARIATION_SELECTOR_16 : Grapheme := [Char.ofNat 0xfe0f]

/-- `src/text.rs`: the five single-scalar `SKIN_TONES` constants
(U+1F3FB .. U+1F3FF).  Each Rust entry is a one-scalar string, so the
substring test `grapheme.contains(skin_tone)` is scalar membership. -/
def SKIN_TONES : List Char :=
  [Char.ofNat 0x1f3fb, Char.ofNat 0x1f3fc, Char.ofNat 0x1f3fd,
   Char.ofNat 0x1f3fe, Char.ofNat 0x1f3ff]

/-- `src/text.rs`: `grapheme_width`.  The final fallback
`grapheme.width()` comes from the external `unicode_width` crate and is
abstracted as the parameter `ea` (the east-asian-width-aware width). -/
def grapheme_width (ea : Grapheme → ℕ) (g : Grapheme) : ℕ :=
  if g = TAB then 4
  else if g = ZERO_WIDTH_JOINER ∨ g = VARIATION_SELECTOR_16 then 0
  else if ZWJ_CHAR ∈ g then 2
  else if SKIN_TONES.any (fun c => c ∈ g) then 2
  else ea g

/-- `src/text.rs`: `dislay_width` (sic), summed over the grapheme
clusters `gs` of a string as produced by the external segmentation
crate (`s.graphemes(true)`). -/
def dislay_width (ea : Grapheme → ℕ) (gs : List Grapheme) : ℕ :=
  (gs.map (grapheme_width ea)).sum

/-- The per-cluster width exactly as the specification words it
(spec 4.4): tab = 4; zero-width joiner or variation-selector-16 = 0;
any other grapheme containing a zero-width joiner, or any of the five
Unicode skin-tone modifiers = 2; otherwise the standard Unicode
east-asian-width-aware width of the grapheme cluster. -/
def specGraphemeWidth (ea : Grapheme → ℕ) (g : Grapheme) : ℕ :=
  if g = TAB then 4
  else if g = ZERO_WIDTH_JOINER ∨ g = VARIATION_SELECTOR_16 then 0
  else if ZWJ_CHAR ∈ g ∨ SKIN_TONES.any (fun c => c ∈ g) then 2
  else ea g

/-- `src/text.rs`: `dedent` at byte granularity: a leading run of
spaces (width 1) and tabs (width 4).  Returns the byte offset of the
first non-whitespace byte, the display width of the removed run and
the remaining slice.  (The source iterates grapheme clusters of the
external segmentation crate; a leading space or tab byte is its own
cluster at this granularity.) -/
def dedent : List Char → ℕ × ℕ × List Char
  | [] => (0, 0, [])
  | c :: rest =>
    if c = ' ' then
      let d := dedent rest
      (d.1 + 1, d.2.1 + 1, d.2.2)
    else if c = '\t' then
      let d := dedent rest
      (d.1 + 1, d.2.1 + 4, d.2.2)
    else (0, 0, c :: rest)

/-- Byte-level stand-in for `dislay_width` as used by the render model
on source-line slices: tab = 4, any other byte = 1.  Grapheme
clustering and east-asian widths live in external crates and none of
the layout claims depend on the exact widths. -/
def byteWidth (c : Char) : ℕ := if c = '\t' then 4 else 1

/-- Byte-level display width of a slice (see `byteWidth`). -/
def byteDislayWidth (s : List Char) : ℕ := (s.map byteWidth).sum

/-! Source indexing, `src/source.rs`. -/

/-- `src/source.rs`: `SourceSpan`, a half-open byte range.  The field
`end` of the source is named `stop` here (`end` is a Lean keyword);
the packed `NonMaxU32` start is a plain `Nat` (see `SourceSpan.new`
for the constructor checks). -/
structure SourceSpan where
  start : ℕ
  stop : ℕ
deriving DecidableEq, Repr

namespace SourceSpan

/-- `SourceSpan::new`: the `assert!(end >= start)` and the
`NonMaxU32::new(start).expect(..)` conversion; `none` models a panic.
Arguments are `u32` values. -/
def new (start stop : ℕ) : Option SourceSpan :=
  if start ≤ stop then
    if start ≠ U32_MAX then some ⟨start, stop⟩ else none
  else none

/-- `SourceSpan::len`. -/
def len (s : SourceSpan) : ℕ := s.stop - s.start

/-- `SourceSpan::contains`. -/
def contains (s : SourceSpan) (v : ℕ) : Prop := s.start ≤ v ∧ v < s.stop

instance (s : SourceSpan) (v : ℕ) : Decidable (s.contains v) := by
  unfold contains; infer_instance

end SourceSpan

/-- `src/source.rs`: `SourceLine`. -/
structure SourceLine where
  index : ℕ
  indent_size : ℕ
  full_span : SourceSpan
  dedented_span : SourceSpan
  text : List Char
deriving DecidableEq, Repr

/-- The carriage-return stripping of `str::lines` on a line that ends
with a newline: remove a carriage return just before the newline. -/
def stripCR (l : List Char) : List Char :=
  match l.getLast? with
  | some c => if c = '\r' then l.dropLast else l
  | none => l

/-- Build one `SourceLine` from its start offset, index and content
(the terminator bytes already removed). -/
def mkSourceLine (lineStart index : ℕ) (content : List Char) : SourceLine :=
  let d := dedent content
  { index := index
    indent_size := d.2.1
    full_span := ⟨lineStart, lineStart + content.length⟩
    dedented_span := ⟨lineStart + d.1, lineStart + content.length⟩
    text := d.2.2 }

/-- One linear pass splitting the buffer at `\n` bytes: `cur` is the
raw current line read so far (newline excluded), `lineStart` its byte
offset.  A line that ends with `\r\n` has the `\r` stripped from its
content, like `str::lines`; a final line without a terminator keeps a
trailing `\r`.  The trailing line terminator is part of no line. -/
def linesOfGo (lineStart index : ℕ) (cur : List Char) : List Char → List SourceLine
  | [] => if cur.isEmpty then [] else [mkSourceLine lineStart index cur]
  | c :: rest =>
    if c = '\n' then
      mkSourceLine lineStart index (stripCR cur) ::
        linesOfGo (lineStart + cur.length + 1) (index + 1) [] rest
    else
      linesOfGo lineStart index (cur ++ [c]) rest

/-- `Source::lines_of`, with explicit byte offsets in place of the
pointer arithmetic of the source: each produced `SourceLine` records
its byte span in the original buffer.  (The `u32` casts of the source
are omitted: buffers handled by the Rust code are below 4 GiB.) -/
def linesOf (s : List Char) : List SourceLine :=
  linesOfGo 0 0 [] s

/-- `src/source.rs`: `Source`.  The optional per-source style is
modelled away with the rest of the styling. -/
structure Source where
  src : List Char
  name : Option String
  lines : List SourceLine
deriving DecidableEq, Repr

namespace Source

/-- `Source::new`. -/
def new (src : List Char) (name : Option String) : Source :=
  ⟨src, name, linesOf src⟩

/-- `Source::line_index_at`: the bounds test `index > self.src.len()`,
then `partition_point` over the line-start offsets (the lines list is
partitioned by `start <= index` because starts increase), then
`checked_sub(1)`. -/
def line_index_at (src : Source) (index : ℕ) : Option ℕ :=
  if src.src.length < index then none
  else
    match (src.lines.takeWhile (fun l => l.full_span.start ≤ index)).length with
    | 0 => none
    | n + 1 => some n

/-- `Source::line_range_of_span`: the inclusive-start/exclusive-end
line-index range; `span.end().saturating_sub(1).max(span.start())` is
`max (span.stop - 1) span.start` on `Nat`. -/
def line_range_of_span (src : Source) (span : SourceSpan) : Option (ℕ × ℕ) :=
  match src.line_index_at span.start,
        src.line_index_at (max (span.stop - 1) span.start) with
  | some a, some b => some (a, b + 1)
  | _, _ => none

end Source

/-- `owo_colors::Style` is an external collaborator; styling is
modelled as the identity on text, so the style value carries no
data. -/
structure Style where
deriving DecidableEq, Repr

/-- `src/diagnostic.rs`: `Label`. -/
structure Label where
  message : String
  span : SourceSpan
  indicator_style : Option Style
deriving DecidableEq, Repr

namespace Label

/-- `Label::line_range` (panics, here `none`, if the span is out of
bounds). -/
def line_range (l : Label) (src : Source) : Option (ℕ × ℕ) :=
  src.line_range_of_span l.span

/-- `Label::is_singleline`. -/
def is_singleline (l : Label) (src : Source) : Option Bool :=
  (l.line_range src).map (fun r => decide (r.1 + 1 = r.2))

end Label

/-! The sweep, `src/diagnostic/body/builder.rs`. -/

/-- Modelled from the spec (3. DATA MODEL, "Chunk"): the per-line event
record `BodyChunk`.  The struct itself lives in `src/diagnostic/body.rs`
of the two-pass design, which is not among the source files; every field
is fixed by its uses in `builder.rs` and `writer.rs`. -/
structure BodyChunk where
  line : SourceLine
  singleline_labels : List Label
  starting_multiline_labels : List Label
  finishing_multiline_labels : List ℕ
deriving DecidableEq, Repr

/-- Modelled from the spec (4.2, outputs of the sweep): the
`BodyDescriptor` record; like `BodyChunk`, its fields are fixed by the
uses in `builder.rs`, `writer.rs` and `diagnostic.rs`. -/
structure BodyDescriptor where
  chunks : List BodyChunk
  indent_trim : ℕ
  line_number_width : ℕ
  maximum_parallel_labels : ℕ
deriving DecidableEq, Repr

/-- `usize::MAX`, the initial value of the running `indent_trim`. -/
def USIZE_MAX : ℕ := 18446744073709551615

/-- `DescriptorBuilder::emit_labels_in_current`: pop labels while their
start line equals `currentLine`, classifying each as single- or
multi-line; a multiline label gets the next sequential id and is pushed
onto the end of `active`.  Returns the remaining stack, the singleline
labels, the starting multiline labels, the new active list and the next
id, in pop order.  `none` models the `expect("valid label")` panics. -/
def emitLabelsInCurrent (src : Source) (currentLine : ℕ) :
    List Label → List (ℕ × SourceSpan) → ℕ →
    Option (List Label × List Label × List Label × List (ℕ × SourceSpan) × ℕ)
  | [], active, mid => some ([], [], [], active, mid)
  | l :: stack, active, mid => do
    let startLine ← src.line_index_at l.span.start
    if startLine = currentLine then
      let single ← l.is_singleline src
      if single then
        let r ← emitLabelsInCurrent src currentLine stack active mid
        some (r.1, l :: r.2.1, r.2.2.1, r.2.2.2.1, r.2.2.2.2)
      else
        let r ← emitLabelsInCurrent src currentLine stack
          (active ++ [(mid, l.span)]) (mid + 1)
        some (r.1, r.2.1, l :: r.2.2.1, r.2.2.2.1, r.2.2.2.2)
    else
      some (l :: stack, [], [], active, mid)

/-- `DescriptorBuilder::finish_labels_in_current`: `retain` over the
active list, collecting in order the ids whose span's end line equals
`currentLine`.  `none` models the `expect("valid label")` panic. -/
def finishLabelsInCurrent (src : Source) (currentLine : ℕ) :
    List (ℕ × SourceSpan) → Option (List ℕ × List (ℕ × SourceSpan))
  | [] => some ([], [])
  | (id, sp) :: active => do
    let endLine ← src.line_index_at sp.stop
    let r ← finishLabelsInCurrent src currentLine active
    if endLine = currentLine then some (id :: r.1, r.2)
    else some (r.1, (id, sp) :: r.2)

/-- The `current_line` update at the top of the loop body of
`emit_events`: jump to the next unconsumed label's start line when no
label is active (`expect("has remaining labels")` cannot fire: the
loop guard guarantees a non-empty stack there), otherwise walk one
line forward. -/
def nextCurrentLine (src : Source) (stack : List Label)
    (active : List (ℕ × SourceSpan)) (currentLine : ℕ) : Option ℕ :=
  if active.isEmpty then
    match stack with
    | [] => none
    | l :: _ => src.line_index_at l.span.start
  else some (currentLine + 1)

/-- `DescriptorBuilder::emit_events`, with explicit fuel: each
iteration of the Rust `while` loop consumes one unit.  The chunk lines
are strictly increasing and each is a valid line index, so
`src.lines.length + 1` units always suffice (see the fuel choice in
`BodyDescriptor.build`); `none` models a panic (`expect`) or, for an
input on which the Rust loop would not produce a chunk per remaining
fuel unit, exhaustion.  Returns the emitted chunks (in order) and the
final running `indent_trim`. -/
def emitEvents (src : Source) :
    ℕ → List Label → List (ℕ × SourceSpan) → ℕ → ℕ → ℕ →
    Option (List BodyChunk × ℕ)
  | 0, _, _, _, _, _ => none
  | fuel + 1, stack, active, mid, currentLine, indentTrim =>
    if stack.isEmpty && active.isEmpty then some ([], indentTrim)
    else do
      let currentLine' ← nextCurrentLine src stack active currentLine
      let line ← src.lines.get? currentLine'
      let indentTrim' :=
        if line.text.isEmpty then indentTrim else min indentTrim line.indent_size
      let e ← emitLabelsInCurrent src currentLine' stack active mid
      let f ← finishLabelsInCurrent src currentLine' e.2.2.2.1
      let rest ← emitEvents src fuel e.1 f.2 e.2.2.2.2 currentLine' indentTrim'
      some ({ line := line
              singleline_labels := e.2.1
              starting_multiline_labels := e.2.2.1
              finishing_multiline_labels := f.1 } :: rest.1, rest.2)

/-- `DescriptorBuilder::calculate_line_number_width`:
`(last line index + 1).ilog10() + 1`, or 0 with no chunks. -/
def calculateLineNumberWidth (chunks : List BodyChunk) : ℕ :=
  match chunks.getLast? with
  | some chunk => Nat.log 10 (chunk.line.index + 1) + 1
  | none => 0

/-- `DescriptorBuilder::calculate_maximum_parallel_labels`: the
high-water mark of the running start/finish count, the finishes of a
chunk subtracted after taking the maximum. -/
def calculateMaximumParallelLabels (chunks : List BodyChunk) : ℕ :=
  (chunks.foldl
    (fun cm chunk =>
      let count := cm.1 + chunk.starting_multiline_labels.length
      let m := max cm.2 count
      (count - chunk.finishing_multiline_labels.length, m))
    (0, 0)).2

/-- The label stack of `DescriptorBuilder::new`: the labels sorted by
span start, descending (a stable sort, like Rust `sort_by_key`), popped
from the end of the Vec; the model keeps the pop order as a head-first
list, i.e. the reverse of the sorted Vec. -/
def labelStack (labels : List Label) : List Label :=
  (List.insertionSort (fun a b : Label => b.span.start ≤ a.span.start) labels).reverse

/-- `BodyDescriptor::new` (in `body.rs`, delegating to
`DescriptorBuilder::new` + `build`): run the sweep and compute the
derived quantities.  Initial state: no active labels, id 0, line 0,
`indent_trim = usize::MAX`. -/
def BodyDescriptor.build (src : Source) (labels : List Label) :
    Option BodyDescriptor := do
  let r ← emitEvents src (src.lines.length + 1) (labelStack labels) [] 0 0 USIZE_MAX
  some { chunks := r.1
         indent_trim := r.2
         line_number_width := calculateLineNumberWidth r.1
         maximum_parallel_labels := calculateMaximumParallelLabels r.1 }

/-! The body writer, `src/diagnostic/body/writer.rs`, and the
configuration, `src/diagnostic/config.rs`. -/

/-- `src/diagnostic/config.rs`: `Charset`. -/
structure Charset where
  vertical_bar : Char
  horizontal_bar : Char
  underliner : Char
  separator : Char
  connection_top_to_right : Char
  multiline_start : Char
  multiline_end : Char
  multiline_crossing : Char
deriving DecidableEq, Repr

/-- `Charset::default`. -/
def Charset.default : Charset :=
  { vertical_bar := '│'
    horizontal_bar := '╶'
    underliner := '^'
    separator := ':'
    connection_top_to_right := '╰'
    multiline_start := '┬'
    multiline_end := '┼'
    multiline_crossing := '┼' }

/-- `src/diagnostic/config.rs`: `DefaultStyles` (each `Style` is
modelled as the identity on text). -/
structure DefaultStyles where
  source_name : Style
  source : Style
  left_column : Style
  multiline_indicator : Style
  singleline_indicator : Style
  footnote_indicator : Style
deriving DecidableEq, Repr

/-- `src/diagnostic/config.rs`: `Config`. -/
structure Config where
  charset : Charset
  styles : DefaultStyles
deriving DecidableEq, Repr

/-- `Config::default`. -/
def Config.default : Config := ⟨Charset.default, ⟨⟨⟩, ⟨⟩, ⟨⟩, ⟨⟩, ⟨⟩, ⟨⟩⟩⟩

/-- The panics the render can hit; a `.error` result of the writer
model stands for the corresponding Rust panic. -/
inductive RenderError where
  /-- `expect("has enough slots")` in `BodyWriter::allocate_multiline`. -/
  | allocOverflow
  /-- `finished_multiline.unwrap()` in `BodyWriter::emit_multiline_label`. -/
  | missingFinish
  /-- Arithmetic underflow of an unsigned subtraction, or out-of-range
  string slicing, in `emit_source_line`/`emit_singleline_labels`. -/
  | panicSub
  /-- A panic (`expect`) inside `BodyDescriptor::new`. -/
  | buildPanic
deriving DecidableEq, Repr

/-- `src/diagnostic/body/writer.rs`: `ActiveMultiline`. -/
structure ActiveMultiline where
  label_id : ℕ
  label : Label
  recently_added : Bool
deriving DecidableEq, Repr

/-- The mutable state of `BodyWriter`: slots, the id counter, the
current indent level, and the bytes written so far (as the ordered
fragments of the individual `write!` calls). -/
structure WriterState where
  slots : List (Option ActiveMultiline)
  multiline_id : ℕ
  current_indent_level : ℕ
  out : List String
deriving DecidableEq, Repr

/-- A string of `n` spaces. -/
def spaces (n : ℕ) : String := String.mk (List.replicate n ' ')

/-- A string of `n` copies of `c`. -/
def repeatChar (c : Char) (n : ℕ) : String := String.mk (List.replicate n c)

/-- The Rust `{:padding$}` formatting of a line number: right-aligned,
space-padded decimal. -/
def natPad (n w : ℕ) : String := spaces (w - (toString n).length) ++ toString n

/-- Checked unsigned subtraction: Rust `a - b` on `u32`/`usize`, whose
underflow is a panic. -/
def checkSub (a b : ℕ) : Except RenderError ℕ :=
  if b ≤ a then .ok (a - b) else .error .panicSub

/-- Checked slicing `s[a..b]`: out-of-range or inverted bounds are a
panic. -/
def checkSlice (s : List Char) (a b : ℕ) : Except RenderError (List Char) :=
  if a ≤ b ∧ b ≤ s.length then .ok ((s.take b).drop a) else .error .panicSub

namespace Writer

/-- Append output fragments. -/
def push (st : WriterState) (frags : List String) : WriterState :=
  { st with out := st.out ++ frags }

/-- `BodyWriter::emit_left_column`. -/
def emitLeftColumn (cfg : Config) (lineNumberWidth : ℕ) (st : WriterState)
    (lineIndex : Option ℕ) : WriterState :=
  match lineIndex with
  | some index =>
    push st [natPad (index + 1) lineNumberWidth ++ " " ++
      String.singleton cfg.charset.vertical_bar ++ " "]
  | none =>
    push st [spaces lineNumberWidth ++ " " ++
      String.singleton cfg.charset.separator ++ " "]

/-- One slot of `BodyWriter::emit_multiline_indicators`: the glyph it
writes and the slot afterwards (`recently_added` cleared). -/
def indicatorStep (cfg : Config) (finishing : List ℕ)
    (slot : Option ActiveMultiline) : Option ActiveMultiline × String :=
  match slot with
  | none => (none, "  ")
  | some a =>
    let c :=
      if a.recently_added then cfg.charset.multiline_start
      else if a.label_id ∈ finishing then cfg.charset.multiline_end
      else cfg.charset.vertical_bar
    (some { a with recently_added := false }, String.singleton c ++ " ")

/-- `BodyWriter::emit_multiline_indicators`. -/
def emitMultilineIndicators (cfg : Config) (st : WriterState)
    (finishing : List ℕ) : WriterState :=
  let steps := st.slots.map (indicatorStep cfg finishing)
  { st with slots := steps.map Prod.fst,
            out := st.out ++ steps.map Prod.snd }

/-- The margin computation inside `BodyWriter::emit_source_line`:
zero for an empty line (the special case), otherwise the `usize`
subtraction `indent_size - indent_trim`, which panics on underflow. -/
def sourceLineMargin (indentTrim : ℕ) (line : SourceLine) :
    Except RenderError ℕ :=
  if line.text.isEmpty then .ok 0 else checkSub line.indent_size indentTrim

/-- `BodyWriter::emit_source_line`. -/
def emitSourceLine (cfg : Config) (lineNumberWidth indentTrim : ℕ)
    (st : WriterState) (chunk : BodyChunk) : Except RenderError WriterState := do
  let st := emitLeftColumn cfg lineNumberWidth st (some chunk.line.index)
  let st := emitMultilineIndicators cfg st chunk.finishing_multiline_labels
  let level ← sourceLineMargin indentTrim chunk.line
  let st := { st with current_indent_level := level }
  .ok (push st [spaces level ++ String.mk chunk.line.text ++ "\n"])

/-- The body of the `for` loop of `BodyWriter::emit_singleline_labels`,
for one label.  `local_base` is the absolute start of the line's
dedented span while `line.text().len()` is line-local: the
`min(..) - local_base` subtraction underflows whenever the line's
dedented start offset exceeds its own text length. -/
def emitSinglelineLabel (cfg : Config) (lineNumberWidth : ℕ)
    (line : SourceLine) (finishing : List ℕ) (st : WriterState)
    (label : Label) : Except RenderError WriterState := do
  let st := emitLeftColumn cfg lineNumberWidth st none
  let st := emitMultilineIndicators cfg st finishing
  let local_base := line.dedented_span.start
  let beforeStop ← checkSub label.span.start local_base
  let underStop ← checkSub (min label.span.stop line.text.length) local_base
  let beforeSlice ← checkSlice line.text 0 beforeStop
  let underSlice ← checkSlice line.text beforeStop underStop
  let before_underline_width := byteDislayWidth beforeSlice
  let underline_width := byteDislayWidth underSlice
  let before_label :=
    spaces before_underline_width ++
      repeatChar cfg.charset.underliner underline_width
  .ok (push st [spaces st.current_indent_level ++ before_label ++ " " ++
    label.message ++ "\n"])

/-- `BodyWriter::emit_singleline_labels`. -/
def emitSinglelineLabels (cfg : Config) (lineNumberWidth : ℕ)
    (st : WriterState) (chunk : BodyChunk) : Except RenderError WriterState :=
  chunk.singleline_labels.foldlM
    (emitSinglelineLabel cfg lineNumberWidth chunk.line
      chunk.finishing_multiline_labels)
    st

/-- Place `a` into the first empty slot; returns the new slots and the
chosen index, or `none` when every slot is full. -/
def setFirstFree : List (Option ActiveMultiline) → ActiveMultiline →
    Option (List (Option ActiveMultiline) × ℕ)
  | [], _ => none
  | none :: rest, a => some (some a :: rest, 0)
  | some b :: rest, a =>
    (setFirstFree rest a).map (fun r => (some b :: r.1, r.2 + 1))

/-- `BodyWriter::allocate_multiline`: the label goes into the first
empty slot with the next id; no empty slot is the fatal
`expect("has enough slots")`. -/
def allocateMultiline (st : WriterState) (label : Label) :
    Except RenderError WriterState :=
  match setFirstFree st.slots ⟨st.multiline_id, label, true⟩ with
  | some r => .ok { st with slots := r.1, multiline_id := st.multiline_id + 1 }
  | none => .error .allocOverflow

/-- `BodyWriter::start_multiline_labels`. -/
def startMultilineLabels (st : WriterState) (chunk : BodyChunk) :
    Except RenderError WriterState :=
  chunk.starting_multiline_labels.foldlM allocateMultiline st

/-- Split the slots at the first slot holding `label_id = id`. -/
def splitAtId : List (Option ActiveMultiline) → ℕ →
    Option (List (Option ActiveMultiline) × ActiveMultiline ×
      List (Option ActiveMultiline))
  | [], _ => none
  | none :: rest, id =>
    (splitAtId rest id).map (fun r => (none :: r.1, r.2.1, r.2.2))
  | some a :: rest, id =>
    if a.label_id = id then some ([], a, rest)
    else (splitAtId rest id).map (fun r => (some a :: r.1, r.2.1, r.2.2))

/-- `BodyWriter::emit_multiline_label`: scan the slots left to right;
slots before the closing one draw a vertical bar (blanks when empty),
the closing slot draws the corner connector and is emptied, slots after
it draw the crossing glyph when occupied and the horizontal filler when
empty; then the message.  Returns the closed slot's index as the
observable for the closing order.  A missing id is the
`finished_multiline.unwrap()` panic. -/
def emitMultilineLabel (cfg : Config) (lineNumberWidth : ℕ)
    (st : WriterState) (label_id : ℕ) :
    Except RenderError (WriterState × ℕ) := do
  let st := emitLeftColumn cfg lineNumberWidth st none
  match splitAtId st.slots label_id with
  | none => .error .missingFinish
  | some (pre, found, post) =>
    let preFrags := pre.map (fun s =>
      match s with
      | none => "  "
      | some _ => String.singleton cfg.charset.vertical_bar ++ " ")
    let cornerFrag := String.singleton cfg.charset.connection_top_to_right ++
      String.singleton cfg.charset.horizontal_bar
    let postFrags := post.map (fun s =>
      match s with
      | none => "  "
      | some _ => String.singleton cfg.charset.multiline_crossing ++
          String.singleton cfg.charset.horizontal_bar)
    let msgFrag := " " ++ found.label.message ++ "\n"
    let st := { st with slots := pre ++ [none] ++ post,
                        out := st.out ++ preFrags ++ [cornerFrag] ++
                          postFrags ++ [msgFrag] }
    .ok (st, pre.length)

/-- `BodyWriter::finish_multiline_labels`: close the chunk's finishing
ids in list order, collecting the closed slot indices in order. -/
def finishMultilineLabels (cfg : Config) (lineNumberWidth : ℕ)
    (st : WriterState) (chunk : BodyChunk) :
    Except RenderError (WriterState × List ℕ) :=
  chunk.finishing_multiline_labels.foldlM
    (fun acc id => do
      let r ← emitMultilineLabel cfg lineNumberWidth acc.1 id
      .ok (r.1, acc.2 ++ [r.2]))
    (st, [])

/-- One iteration of the loop of `BodyWriter::write`: starts, source
line, singleline labels, finishing multilines.  Also returns the closed
slot indices of the chunk, in closing order. -/
def processChunk (cfg : Config) (lineNumberWidth indentTrim : ℕ)
    (st : WriterState) (chunk : BodyChunk) :
    Except RenderError (WriterState × List ℕ) := do
  let st ← startMultilineLabels st chunk
  let st ← emitSourceLine cfg lineNumberWidth indentTrim st chunk
  let st ← emitSinglelineLabels cfg lineNumberWidth st chunk
  finishMultilineLabels cfg lineNumberWidth st chunk

/-- The loop of `BodyWriter::write`, collecting each chunk's closed
slot indices. -/
def runChunks (cfg : Config) (lineNumberWidth indentTrim : ℕ) :
    WriterState → List BodyChunk →
    Except RenderError (WriterState × List (List ℕ))
  | st, [] => .ok (st, [])
  | st, chunk :: chunks => do
    let r ← processChunk cfg lineNumberWidth indentTrim st chunk
    let rest ← runChunks cfg lineNumberWidth indentTrim r.1 chunks
    .ok (rest.1, r.2 :: rest.2)

end Writer

/-- `BodyWriter::new` + `BodyWriter::write` (= the missing
`BodyDescriptor::write_to` of `body.rs`): `maximum_parallel_labels`
empty slots, ids from 0. -/
def BodyDescriptor.writeTo (desc : BodyDescriptor) (cfg : Config) :
    Except RenderError (WriterState × List (List ℕ)) :=
  Writer.runChunks cfg desc.line_number_width desc.indent_trim
    { slots := List.replicate desc.maximum_parallel_labels none
      multiline_id := 0
      current_indent_level := 0
      out := [] }
    desc.chunks

/-! The diagnostic container and the full-layout entry point,
`src/diagnostic.rs`. -/

/-- `src/diagnostic.rs`: `Diagnostic`, with a source attached. -/
structure Diagnostic where
  message : String
  labels : List Label
  footnotes : List String
  source : Source
deriving DecidableEq, Repr

namespace Diagnostic

/-- `Diagnostic::write_header`. -/
def writeHeader (d : Diagnostic) (lineNumberWidth : ℕ) : List String :=
  [d.message ++ "\n",
   spaces lineNumberWidth,
   " @ [" ++ (d.source.name.getD "unknown") ++ "]\n"]

/-- `Diagnostic::write_footnotes`. -/
def writeFootnotes (d : Diagnostic) (lineNumberWidth : ℕ) : List String :=
  d.footnotes.map (fun f => spaces lineNumberWidth ++ " > " ++ f ++ "\n")

/-- `Diagnostic::write_to`, the full-layout entry point: build the
descriptor from the (cloned) source and labels, then header, body,
footnotes and a final blank line.  The output is the ordered list of
written fragments; their concatenation is the byte stream. -/
def write_to (d : Diagnostic) (cfg : Config) :
    Except RenderError (List String) := do
  let desc ←
    match BodyDescriptor.build d.source d.labels with
    | some desc => Except.ok desc
    | none => Except.error RenderError.buildPanic
  let body ← desc.writeTo cfg
  .ok (d.writeHeader desc.line_number_width ++ body.1.out ++
    d.writeFootnotes desc.line_number_width ++ ["\n"])

end Diagnostic

/-! Temporary smoke tests mirroring `src/source.rs` unit tests. -/

def sampleSrc : Source :=
  Source.new ("hello there darling!\nthis is\n\na sample text :)\n".toList) none

example : sampleSrc.line_range_of_span ⟨21, 28⟩ = some (1, 2) := by decide
example : sampleSrc.line_range_of_span ⟨21, 29⟩ = some (1, 2) := by decide
example : sampleSrc.line_range_of_span ⟨21, 30⟩ = some (1, 3) := by decide
example : sampleSrc.line_range_of_span ⟨21, 31⟩ = some (1, 4) := by decide
example : (sampleSrc.lines.map (fun l => l.full_span)) =
    [⟨0, 20⟩, ⟨21, 28⟩, ⟨29, 29⟩, ⟨30, 46⟩] := by decide

def scratchLabel (start stop : ℕ) : Label := ⟨"", ⟨start, stop⟩, none⟩

def scratchSrcA : Source := Source.new "hello there darling!\n\nworld".toList none

example :
    (BodyDescriptor.build scratchSrcA [scratchLabel 0 5]).map
      (fun d => (d.chunks.map (fun c => (c.line.index,
          c.singleline_labels.length, c.starting_multiline_labels.length,
          c.finishing_multiline_labels)), d.maximum_parallel_labels)) =
    some ([(0, 1, 0, [])], 0) := by rfl

def scratchSrcB : Source := Source.new "ab\ncd\nef".toList none

example :
    (BodyDescriptor.build scratchSrcB [scratchLabel 0 6]).map
      (fun d => d.chunks.map (fun c => (c.line.index,
          c.starting_multiline_labels.length, c.finishing_multiline_labels))) =
    some [(0, 1, []), (1, 0, []), (2, 0, [0])] := by rfl

def scratchSrcC : Source := Source.new "a\nb\nc\nd\ne".toList none

def scratchLabelsC : List Label :=
  [scratchLabel 0 5, scratchLabel 1 9, scratchLabel 6 9]

example :
    (BodyDescriptor.build scratchSrcC scratchLabelsC).map
      (fun d => (d.maximum_parallel_labels,
        d.chunks.map (fun c => (c.line.index,
          c.starting_multiline_labels.length, c.finishing_multiline_labels)))) =
    some (2, [(0, 2, []), (1, 0, []), (2, 0, [0]), (3, 1, []), (4, 0, [1, 2])]) := by
  rfl

example :
    (((BodyDescriptor.build scratchSrcC scratchLabelsC).getD
        ⟨[], 0, 0, 0⟩).writeTo Config.default).map Prod.snd =
    .ok [[], [], [0], [], [1, 0]] := by rfl

def scratchSrcD : Source := Source.new "abcdefghij\nxy".toList none

def scratchSrcE : Source := Source.new "ab\ncd".toList none

example :
    (Diagnostic.write_to ⟨"m", [scratchLabel 11 13], [], scratchSrcD⟩
      Config.default) = .error .panicSub := by rfl

/-! Monad-bind reduction helpers. -/

theorem except_bind_error {ε α β : Type} (e : ε) (f : α → Except ε β) :
    (Except.error e >>= f) = Except.error e := rfl

theorem except_bind_ok {ε α β : Type} (a : α) (f : α → Except ε β) :
    (Except.ok a >>= f) = f a := rfl

theorem option_bind_none {α β : Type} (f : α → Option β) :
    ((none : Option α) >>= f) = none := rfl

theorem option_bind_some {α β : Type} (a : α) (f : α → Option β) :
    (some a >>= f) = f a := rfl

/-! Structural facts about the sweep's helper functions. -/

theorem takeWhile_length_mono {α : Type} {p q : α → Bool}
    (h : ∀ a, p a = true → q a = true) :
    ∀ l : List α, (l.takeWhile p).length ≤ (l.takeWhile q).length := by
  intro l
  induction l with
  | nil => simp
  | cons a l ih =>
    by_cases hp : p a
    · have hq := h a hp
      simp [List.takeWhile_cons, hp, hq]
      omega
    · simp [List.takeWhile_cons, hp]

/-- `line_index_at` is monotone where defined: the `partition_point`
count only grows with the offset. -/
theorem line_index_at_mono {src : Source} {i j a b : ℕ} (hij : i ≤ j)
    (ha : src.line_index_at i = some a) (hb : src.line_index_at j = some b) :
    a ≤ b := by
  unfold Source.line_index_at at ha hb
  split_ifs at ha hb with h1 h2
  have hmono := takeWhile_length_mono
    (p := fun l : SourceLine => decide (l.full_span.start ≤ i))
    (q := fun l : SourceLine => decide (l.full_span.start ≤ j))
    (fun l hl => by
      simp only [decide_eq_true_eq] at hl ⊢
      omega)
    src.lines
  revert ha hb
  cases hi : (src.lines.takeWhile (fun l => decide (l.full_span.start ≤ i))).length with
  | zero => intro ha; cases ha
  | succ n =>
    cases hj : (src.lines.takeWhile (fun l => decide (l.full_span.start ≤ j))).length with
    | zero =>
      rw [hi, hj] at hmono
      omega
    | succ m =>
      intro ha hb
      cases ha; cases hb
      rw [hi, hj] at hmono
      omega

/-- Full behaviour of `emit_labels_in_current` on success: a popped
prefix of the stack, every popped label starting on the current line;
the single/multi classification lists draw from the popped prefix; the
multiline labels are appended to `active` with consecutive ids from
`mid`; and the remaining stack's head (if any) has a valid start line
different from the current line. -/
theorem emitLabels_spec (src : Source) (cl : ℕ) :
    ∀ (stack : List Label) (active : List (ℕ × SourceSpan)) (mid : ℕ) r,
      emitLabelsInCurrent src cl stack active mid = some r →
      ∃ popped,
        stack = popped ++ r.1 ∧
        (∀ l ∈ popped, src.line_index_at l.span.start = some cl) ∧
        (∀ l ∈ r.2.1, l ∈ popped) ∧
        (∀ l ∈ r.2.2.1, l ∈ popped) ∧
        r.2.2.2.1 = active ++
          ((List.range' mid r.2.2.1.length).zip
            (r.2.2.1.map (fun l => l.span))) ∧
        r.2.2.2.2 = mid + r.2.2.1.length ∧
        (∀ l ∈ r.1.head?, ∃ k, src.line_index_at l.span.start = some k ∧ k ≠ cl) := by
  intro stack
  induction stack with
  | nil =>
    intro active mid r h
    simp only [emitLabelsInCurrent] at h
    cases h
    exact ⟨[], rfl, by simp, by simp, by simp, by simp, by simp, by simp⟩
  | cons l stack ih =>
    intro active mid r h
    simp only [emitLabelsInCurrent] at h
    cases hls : src.line_index_at l.span.start with
    | none => rw [hls, option_bind_none] at h; cases h
    | some k =>
      rw [hls, option_bind_some] at h
      by_cases hk : k = cl
      · simp only [hk, if_pos rfl] at h
        cases hsl : l.is_singleline src with
        | none => rw [hsl, option_bind_none] at h; cases h
        | some b =>
          rw [hsl, option_bind_some] at h
          cases b
          · simp only [Bool.false_eq_true, if_neg, ite_false] at h
            cases hrec : emitLabelsInCurrent src cl stack
                (active ++ [(mid, l.span)]) (mid + 1) with
            | none => rw [hrec, option_bind_none] at h; cases h
            | some rr =>
              rw [hrec, option_bind_some] at h
              cases h
              obtain ⟨popped, hpop, hline, hsing, hstart, hact, hmid, hhead⟩ :=
                ih _ _ _ hrec
              refine ⟨l :: popped, ?_, ?_, ?_, ?_, ?_, ?_, ?_⟩
              · simpa using hpop
              · intro x hx
                rcases List.mem_cons.mp hx with rfl | hx
                · rw [hls, hk]
                · exact hline x hx
              · intro x hx
                exact List.mem_cons_of_mem _ (hsing x hx)
              · intro x hx
                rcases List.mem_cons.mp hx with rfl | hx
                · exact List.mem_cons_self _ _
                · exact List.mem_cons_of_mem _ (hstart x hx)
              · simp only [List.length_cons, List.map_cons]
                rw [List.range'_succ, List.zip_cons_cons, hact]
                simp [List.append_assoc]
              · simp only [List.length_cons]
                omega
              · exact hhead
          · simp only [if_pos rfl, ite_true] at h
            cases hrec : emitLabelsInCurrent src cl stack active mid with
            | none => rw [hrec, option_bind_none] at h; cases h
            | some rr =>
              rw [hrec, option_bind_some] at h
              cases h
              obtain ⟨popped, hpop, hline, hsing, hstart, hact, hmid, hhead⟩ :=
                ih _ _ _ hrec
              refine ⟨l :: popped, ?_, ?_, ?_, ?_, hact, hmid, hhead⟩
              · simpa using hpop
              · intro x hx
                rcases List.mem_cons.mp hx with rfl | hx
                · rw [hls, hk]
                · exact hline x hx
              · intro x hx
                rcases List.mem_cons.mp hx with rfl | hx
                · exact List.mem_cons_self _ _
                · exact List.mem_cons_of_mem _ (hsing x hx)
              · intro x hx
                exact List.mem_cons_of_mem _ (hstart x hx)
      · rw [if_neg hk] at h
        cases h
        exact ⟨[], rfl, by simp, by simp, by simp, by simp, by simp,
          by
            intro x hx
            simp only [List.head?_cons, Option.mem_def, Option.some.injEq] at hx
            subst hx
            exact ⟨k, hls, hk⟩⟩

/-- Full behaviour of `finish_labels_in_current` on success: the
retained list is the filter of entries whose end line is not the
current line, the finishing ids are the complementary filter's ids (in
order), and every entry has a valid end line. -/
theorem finishLabels_spec (src : Source) (cl : ℕ) :
    ∀ (active : List (ℕ × SourceSpan)) r,
      finishLabelsInCurrent src cl active = some r →
      r.1 = (active.filter
          (fun p => src.line_index_at p.2.stop = some cl)).map Prod.fst ∧
      r.2 = active.filter
          (fun p => ¬ (src.line_index_at p.2.stop = some cl)) ∧
      ∀ p ∈ active, ∃ k, src.line_index_at p.2.stop = some k := by
  intro active
  induction active with
  | nil =>
    intro r h
    simp only [finishLabelsInCurrent] at h
    cases h
    exact ⟨rfl, rfl, by simp⟩
  | cons p active ih =>
    intro r h
    obtain ⟨id, sp⟩ := p
    simp only [finishLabelsInCurrent] at h
    cases hel : src.line_index_at sp.stop with
    | none => rw [hel, option_bind_none] at h; cases h
    | some k =>
      rw [hel, option_bind_some] at h
      cases hrec : finishLabelsInCurrent src cl active with
      | none => rw [hrec, option_bind_none] at h; cases h
      | some rr =>
        rw [hrec, option_bind_some] at h
        obtain ⟨h1, h2, h3⟩ := ih _ hrec
        have hmem : ∀ q ∈ (id, sp) :: active,
            ∃ m, src.line_index_at q.2.stop = some m := by
          intro q hq
          rcases List.mem_cons.mp hq with rfl | hq
          · exact ⟨k, hel⟩
          · exact h3 q hq
        by_cases hk : k = cl
        · rw [if_pos hk] at h
          cases h
          have hsel : src.line_index_at (id, sp).2.stop = some cl := by
            rw [hel, hk]
          refine ⟨?_, ?_, hmem⟩
          · rw [List.filter_cons, if_pos (by simpa using hsel)]
            simp [h1]
          · rw [List.filter_cons, if_neg (by simpa using hsel)]
            exact h2
        · rw [if_neg hk] at h
          cases h
          have hsel : ¬ src.line_index_at (id, sp).2.stop = some cl := by
            rw [hel]; simp [hk]
          refine ⟨?_, ?_, hmem⟩
          · rw [List.filter_cons, if_neg (by simpa using hsel)]
            exact h1
          · rw [List.filter_cons, if_pos (by simpa using hsel)]
            simp [h2]

/-! The label stack, and well-formedness of constructed sources. -/

/-- The stack pops labels in ascending span-start order. -/
theorem labelStack_sorted (labels : List Label) :
    (labelStack labels).Pairwise (fun a b => a.span.start ≤ b.span.start) := by
  have htotal : IsTotal Label (fun a b => b.span.start ≤ a.span.start) :=
    ⟨fun a b => le_total b.span.start a.span.start⟩
  have htrans : IsTrans Label (fun a b => b.span.start ≤ a.span.start) :=
    ⟨fun a b c hab hbc => le_trans hbc hab⟩
  have hs := @List.sorted_insertionSort Label
    (fun a b => b.span.start ≤ a.span.start) _ htotal htrans labels
  unfold labelStack
  rw [List.pairwise_reverse]
  exact hs

/-- The stack is a permutation of the input labels. -/
theorem labelStack_perm (labels : List Label) :
    (labelStack labels).Perm labels :=
  (List.reverse_perm _).trans (List.perm_insertionSort _ labels)

/-- A `Source` as `Source::new` builds it: the lines are the indexed
lines of the text.  (The Rust fields are private, so every `Source`
reaching the renderer satisfies this.) -/
def Source.WF (src : Source) : Prop := src.lines = linesOf src.src

theorem Source.new_wf (s : List Char) (name : Option String) :
    (Source.new s name).WF := rfl

theorem linesOfGo_index :
    ∀ (s cur : List Char) (ls idx k : ℕ) (l : SourceLine),
      (linesOfGo ls idx cur s).get? k = some l → l.index = idx + k := by
  intro s
  induction s with
  | nil =>
    intro cur ls idx k l h
    simp only [linesOfGo] at h
    by_cases hc : cur.isEmpty
    · simp [hc] at h
    · rw [if_neg hc] at h
      cases k with
      | zero => cases h; rfl
      | succ n => simp at h
  | cons c rest ih =>
    intro cur ls idx k l h
    simp only [linesOfGo] at h
    by_cases hc : c = '\n'
    · rw [if_pos hc] at h
      cases k with
      | zero => cases h; rfl
      | succ n =>
        simp only [List.get?_cons_succ] at h
        have := ih [] (ls + cur.length + 1) (idx + 1) n l h
        omega
    · rw [if_neg hc] at h
      exact ih (cur ++ [c]) ls idx k l h

/-- In a well-formed source, the line stored at position `k` carries
index `k`. -/
theorem Source.WF.index_eq {src : Source} (hwf : src.WF) :
    ∀ {k : ℕ} {l : SourceLine}, src.lines.get? k = some l → l.index = k := by
  intro k l h
  rw [hwf] at h
  have := linesOfGo_index src.src [] 0 0 k l h
  omega

/-! Indentation bounds of constructed lines. -/

theorem dedent_width_le (s : List Char) : (dedent s).2.1 ≤ 4 * s.length := by
  induction s with
  | nil => simp [dedent]
  | cons c rest ih =>
    by_cases h1 : c = ' '
    · simp only [dedent, if_pos h1, List.length_cons]
      omega
    · by_cases h2 : c = '\t'
      · simp only [dedent, if_neg h1, if_pos h2, List.length_cons]
        omega
      · simp only [dedent, if_neg h1, if_neg h2]
        omega

theorem stripCR_length_le (l : List Char) : (stripCR l).length ≤ l.length := by
  unfold stripCR
  cases l.getLast? with
  | none => simp
  | some c =>
    by_cases hc : c = '\r' <;> simp [hc, List.length_dropLast] <;> omega

theorem mkSourceLine_indent_le (ls idx : ℕ) (content : List Char) :
    (mkSourceLine ls idx content).indent_size ≤ 4 * content.length :=
  dedent_width_le content

theorem linesOfGo_indent_le :
    ∀ (s cur : List Char) (ls idx : ℕ) (l : SourceLine),
      l ∈ linesOfGo ls idx cur s →
      l.indent_size ≤ 4 * (cur.length + s.length) := by
  intro s
  induction s with
  | nil =>
    intro cur ls idx l h
    simp only [linesOfGo] at h
    by_cases hc : cur.isEmpty
    · simp [hc] at h
    · rw [if_neg hc] at h
      rcases List.mem_singleton.mp h with rfl
      have := mkSourceLine_indent_le ls idx cur
      omega
  | cons c rest ih =>
    intro cur ls idx l h
    simp only [linesOfGo] at h
    by_cases hc : c = '\n'
    · rw [if_pos hc] at h
      rcases List.mem_cons.mp h with rfl | h
      · have h1 := mkSourceLine_indent_le ls idx (stripCR cur)
        have h2 := stripCR_length_le cur
        simp only [List.length_cons]
        omega
      · have := ih [] (ls + cur.length + 1) (idx + 1) l h
        simp at this ⊢
        omega
    · rw [if_neg hc] at h
      have := ih (cur ++ [c]) ls idx l h
      simp at this ⊢
      omega

/-- In a well-formed source every line's indent width is at most four
times the buffer length (each indent byte contributes at most 4). -/
theorem Source.WF.indent_le {src : Source} (hwf : src.WF) :
    ∀ l ∈ src.lines, l.indent_size ≤ 4 * src.src.length := by
  intro l hl
  rw [hwf] at hl
  have := linesOfGo_indent_le src.src [] 0 0 l hl
  simpa using this

/-! The running indent trim of the sweep. -/

/-- The fold the sweep applies to the running `indent_trim`. -/
def trimFold (trim : ℕ) (chunks : List BodyChunk) : ℕ :=
  chunks.foldl
    (fun t c => if c.line.text.isEmpty then t else min t c.line.indent_size)
    trim

theorem trimFold_le_init (chunks : List BodyChunk) :
    ∀ trim, trimFold trim chunks ≤ trim := by
  induction chunks with
  | nil => intro trim; simp [trimFold]
  | cons c cs ih =>
    intro trim
    simp only [trimFold, List.foldl_cons]
    by_cases hc : c.line.text.isEmpty
    · simpa [hc, trimFold] using ih trim
    · have := ih (min trim c.line.indent_size)
      simp only [trimFold] at this
      simp only [hc, ite_false, Bool.false_eq_true, if_neg]
      calc _ ≤ min trim c.line.indent_size := this
        _ ≤ trim := min_le_left _ _

theorem trimFold_le (chunks : List BodyChunk) :
    ∀ trim, ∀ c ∈ chunks, ¬ c.line.text.isEmpty →
      trimFold trim chunks ≤ c.line.indent_size := by
  induction chunks with
  | nil => intro trim c hc; cases hc
  | cons c0 cs ih =>
    intro trim c hc hne
    rcases List.mem_cons.mp hc with rfl | hc
    · simp only [trimFold, List.foldl_cons, if_neg hne]
      calc _ ≤ min trim c.line.indent_size := by
            have := trimFold_le_init cs (min trim c.line.indent_size)
            simpa [trimFold] using this
        _ ≤ c.line.indent_size := min_le_right _ _
    · simp only [trimFold, List.foldl_cons]
      by_cases h0 : c0.line.text.isEmpty
      · simp only [h0, ite_true]
        exact ih trim c hc hne
      · simp only [h0, Bool.false_eq_true, if_neg, ite_false]
        exact ih (min trim c0.line.indent_size) c hc hne

theorem trimFold_mem (chunks : List BodyChunk) :
    ∀ trim, trimFold trim chunks = trim ∨
      ∃ c ∈ chunks, ¬ c.line.text.isEmpty ∧
        trimFold trim chunks = c.line.indent_size := by
  induction chunks with
  | nil => intro trim; left; rfl
  | cons c0 cs ih =>
    intro trim
    simp only [trimFold, List.foldl_cons]
    by_cases h0 : c0.line.text.isEmpty
    · simp only [h0, ite_true]
      rcases ih trim with h | ⟨c, hc, hne, he⟩
      · left; exact h
      · right; exact ⟨c, List.mem_cons_of_mem _ hc, hne, he⟩
    · simp only [h0, Bool.false_eq_true, if_neg, ite_false]
      rcases ih (min trim c0.line.indent_size) with h | ⟨c, hc, hne, he⟩
      · simp only [trimFold] at h
        rcases le_total trim c0.line.indent_size with hle | hle
        · left
          rw [h, min_eq_left hle]
        · right
          exact ⟨c0, List.mem_cons_self _ _, h0, by rw [h, min_eq_right hle]⟩
      · right
        exact ⟨c, List.mem_cons_of_mem _ hc, hne, he⟩

/-- The sweep's final trim is the fold of the per-chunk minimum over
the emitted chunks, and every emitted chunk's line is a line of the
source. -/
theorem emitEvents_trim_mem (src : Source) :
    ∀ (fuel : ℕ) (stack : List Label) (active : List (ℕ × SourceSpan))
      (mid cur trim : ℕ) r,
      emitEvents src fuel stack active mid cur trim = some r →
      r.2 = trimFold trim r.1 ∧
      ∀ c ∈ r.1, c.line ∈ src.lines := by
  intro fuel
  induction fuel with
  | zero => intro stack active mid cur trim r h; cases h
  | succ fuel ih =>
    intro stack active mid cur trim r h
    rw [emitEvents] at h
    by_cases hdone : stack.isEmpty && active.isEmpty
    · rw [if_pos hdone] at h
      cases h
      exact ⟨rfl, by simp⟩
    · rw [if_neg hdone] at h
      cases hcl : nextCurrentLine src stack active cur with
      | none => rw [hcl, option_bind_none] at h; cases h
      | some cl =>
        rw [hcl, option_bind_some] at h
        cases hline : src.lines.get? cl with
        | none => rw [hline, option_bind_none] at h; cases h
        | some line =>
          rw [hline, option_bind_some] at h
          cases he : emitLabelsInCurrent src cl stack active mid with
          | none => rw [he, option_bind_none] at h; cases h
          | some e =>
            rw [he, option_bind_some] at h
            cases hf : finishLabelsInCurrent src cl e.2.2.2.1 with
            | none => rw [hf, option_bind_none] at h; cases h
            | some f =>
              rw [hf, option_bind_some] at h
              cases hrec : emitEvents src fuel e.1 f.2 e.2.2.2.2 cl
                  (if line.text.isEmpty then trim
                   else min trim line.indent_size) with
              | none => rw [hrec, option_bind_none] at h; cases h
              | some rest =>
                rw [hrec, option_bind_some] at h
                cases h
                obtain ⟨ht, hm⟩ := ih _ _ _ _ _ _ hrec
                constructor
                · simp only [trimFold, List.foldl_cons]
                  rw [ht]
                  rfl
                · intro c hc
                  rcases List.mem_cons.mp hc with rfl | hc
                  · exact List.get?_mem hline
                  · exact hm c hc

/-! Strictly increasing chunk lines. -/

theorem nextCurrentLine_eq {src : Source} {stack : List Label}
    {active : List (ℕ × SourceSpan)} {cur cl : ℕ}
    (h : nextCurrentLine src stack active cur = some cl) :
    (active = [] ∧ ∃ l0 stackT, stack = l0 :: stackT ∧
      src.line_index_at l0.span.start = some cl) ∨
    (active ≠ [] ∧ cl = cur + 1) := by
  unfold nextCurrentLine at h
  by_cases ha : active.isEmpty
  · rw [if_pos ha] at h
    left
    refine ⟨List.isEmpty_iff.mp ha, ?_⟩
    cases stack with
    | nil => cases h
    | cons l0 t => exact ⟨l0, t, rfl, h⟩
  · rw [if_neg ha] at h
    cases h
    exact Or.inr ⟨fun he => ha (by simp [he]), rfl⟩

/-- Main invariant run of the sweep: with the stack sorted by span
start, every remaining label starting at line `B` or later, and (while
labels are active) `B = current_line + 1`, the emitted chunks all have
line index at least `B` and their line indices strictly increase. -/
theorem emitEvents_chain (src : Source) (hwf : src.WF) :
    ∀ (fuel : ℕ) (stack : List Label) (active : List (ℕ × SourceSpan))
      (mid cur trim : ℕ) r (B : ℕ),
      emitEvents src fuel stack active mid cur trim = some r →
      stack.Pairwise (fun a b => a.span.start ≤ b.span.start) →
      (∀ l ∈ stack, ∀ k, src.line_index_at l.span.start = some k → B ≤ k) →
      (active ≠ [] → B = cur + 1) →
      (∀ c ∈ r.1, B ≤ c.line.index) ∧
      r.1.Chain' (fun a b => a.line.index < b.line.index) := by
  intro fuel
  induction fuel with
  | zero => intro stack active mid cur trim r B h; cases h
  | succ fuel ih =>
    intro stack active mid cur trim r B h hsort hstack hactive
    rw [emitEvents] at h
    by_cases hdone : stack.isEmpty && active.isEmpty
    · rw [if_pos hdone] at h
      cases h
      exact ⟨by simp, by simp⟩
    · rw [if_neg hdone] at h
      cases hcl : nextCurrentLine src stack active cur with
      | none => rw [hcl, option_bind_none] at h; cases h
      | some cl =>
        rw [hcl, option_bind_some] at h
        cases hline : src.lines.get? cl with
        | none => rw [hline, option_bind_none] at h; cases h
        | some line =>
          rw [hline, option_bind_some] at h
          cases he : emitLabelsInCurrent src cl stack active mid with
          | none => rw [he, option_bind_none] at h; cases h
          | some e =>
            rw [he, option_bind_some] at h
            cases hf : finishLabelsInCurrent src cl e.2.2.2.1 with
            | none => rw [hf, option_bind_none] at h; cases h
            | some f =>
              rw [hf, option_bind_some] at h
              cases hrec : emitEvents src fuel e.1 f.2 e.2.2.2.2 cl
                  (if line.text.isEmpty then trim
                   else min trim line.indent_size) with
              | none => rw [hrec, option_bind_none] at h; cases h
              | some rest =>
                rw [hrec, option_bind_some] at h
                cases h
                -- every remaining label starts at `cl` or later
                have hstack_cl : ∀ l ∈ stack, ∀ k,
                    src.line_index_at l.span.start = some k → cl ≤ k := by
                  rcases nextCurrentLine_eq hcl with
                    ⟨hae, l0, stackT, hst, hl0⟩ | ⟨hane, hcl'⟩
                  · intro l hl k hk
                    have hbyte : l0.span.start ≤ l.span.start := by
                      rcases List.mem_cons.mp (hst ▸ hl) with rfl | hl'
                      · exact le_refl _
                      · exact (List.pairwise_cons.mp (hst ▸ hsort)).1 l hl'
                    exact line_index_at_mono hbyte hl0 hk
                  · intro l hl k hk
                    have := hstack l hl k hk
                    have := hactive hane
                    omega
                -- `B ≤ cl`
                have hBcl : B ≤ cl := by
                  rcases nextCurrentLine_eq hcl with
                    ⟨hae, l0, stackT, hst, hl0⟩ | ⟨hane, hcl'⟩
                  · exact hstack l0 (hst ▸ List.mem_cons_self _ _) cl hl0
                  · rw [hcl', ← hactive hane]
                obtain ⟨popped, hpop, hpopline, _, _, _, _, hhead⟩ :=
                  emitLabels_spec src cl stack active mid e he
                have hsub : e.1.Sublist stack := by
                  rw [hpop]
                  exact List.sublist_append_right popped e.1
                have hsort' : e.1.Pairwise
                    (fun a b => a.span.start ≤ b.span.start) :=
                  hsort.sublist hsub
                -- every label left on the stack starts strictly after `cl`
                have hstack' : ∀ l ∈ e.1, ∀ k,
                    src.line_index_at l.span.start = some k → cl + 1 ≤ k := by
                  cases hstk : e.1 with
                  | nil => intro l hl; cases hl
                  | cons h0 t0 =>
                    obtain ⟨k0, hk0, hk0ne⟩ := hhead h0 (by rw [hstk]; rfl)
                    have hk0ge : cl ≤ k0 :=
                      hstack_cl h0 (hsub.mem (hstk ▸ List.mem_cons_self _ _)) k0 hk0
                    have hk0gt : cl + 1 ≤ k0 := by omega
                    intro l hl k hk
                    rcases List.mem_cons.mp hl with rfl | hl'
                    · rw [hk0] at hk
                      cases hk
                      omega
                    · have hbyte : h0.span.start ≤ l.span.start :=
                        (List.pairwise_cons.mp (hstk ▸ hsort')).1 l hl'
                      have := line_index_at_mono hbyte hk0 hk
                      omega
                obtain ⟨hge, hchain⟩ := ih e.1 f.2 e.2.2.2.2 cl _ rest (cl + 1)
                  hrec hsort' hstack' (fun _ => rfl)
                have hidx : line.index = cl := hwf.index_eq hline
                constructor
                · intro c hc
                  rcases List.mem_cons.mp hc with rfl | hc
                  · simpa [hidx] using hBcl
                  · have := hge c hc
                    omega
                · rw [List.chain'_cons']
                  refine ⟨?_, hchain⟩
                  intro b hb
                  have := hge b (List.mem_of_mem_head? hb)
                  simp only [hidx]
                  omega

/-! Ascending ids in the active list and the finishing lists. -/

theorem zip_range'_pairwise (spans : List SourceSpan) :
    ∀ m : ℕ, ((List.range' m spans.length).zip spans).Pairwise
      (fun p q => p.1 < q.1) := by
  induction spans with
  | nil => intro m; simp
  | cons sp spans ih =>
    intro m
    simp only [List.length_cons, List.range'_succ, List.zip_cons_cons]
    refine List.pairwise_cons.mpr ⟨?_, ih (m + 1)⟩
    intro q hq
    have := (List.of_mem_zip hq).1
    have := List.mem_range'.mp this
    simp only
    omega

/-- In a run of the sweep whose active list has strictly ascending ids
below the id counter, every emitted chunk's finishing list is strictly
ascending. -/
theorem emitEvents_fins_sorted (src : Source) :
    ∀ (fuel : ℕ) (stack : List Label) (active : List (ℕ × SourceSpan))
      (mid cur trim : ℕ) r,
      emitEvents src fuel stack active mid cur trim = some r →
      active.Pairwise (fun p q => p.1 < q.1) →
      (∀ p ∈ active, p.1 < mid) →
      ∀ c ∈ r.1, c.finishing_multiline_labels.Pairwise (· < ·) := by
  intro fuel
  induction fuel with
  | zero => intro stack active mid cur trim r h; cases h
  | succ fuel ih =>
    intro stack active mid cur trim r h hasc hlt
    rw [emitEvents] at h
    by_cases hdone : stack.isEmpty && active.isEmpty
    · rw [if_pos hdone] at h
      cases h
      intro c hc
      cases hc
    · rw [if_neg hdone] at h
      cases hcl : nextCurrentLine src stack active cur with
      | none => rw [hcl, option_bind_none] at h; cases h
      | some cl =>
        rw [hcl, option_bind_some] at h
        cases hline : src.lines.get? cl with
        | none => rw [hline, option_bind_none] at h; cases h
        | some line =>
          rw [hline, option_bind_some] at h
          cases he : emitLabelsInCurrent src cl stack active mid with
          | none => rw [he, option_bind_none] at h; cases h
          | some e =>
            rw [he, option_bind_some] at h
            cases hf : finishLabelsInCurrent src cl e.2.2.2.1 with
            | none => rw [hf, option_bind_none] at h; cases h
            | some f =>
              rw [hf, option_bind_some] at h
              cases hrec : emitEvents src fuel e.1 f.2 e.2.2.2.2 cl
                  (if line.text.isEmpty then trim
                   else min trim line.indent_size) with
              | none => rw [hrec, option_bind_none] at h; cases h
              | some rest =>
                rw [hrec, option_bind_some] at h
                cases h
                obtain ⟨popped, hpop, hpopline, _, _, hact, hmid, hhead⟩ :=
                  emitLabels_spec src cl stack active mid e he
                -- the active list after the starts
                have hasc' : e.2.2.2.1.Pairwise (fun p q => p.1 < q.1) := by
                  rw [hact]
                  rw [List.pairwise_append]
                  refine ⟨hasc, ?_, ?_⟩
                  · have := zip_range'_pairwise
                      (e.2.2.1.map (fun l => l.span)) mid
                    simpa using this
                  intro p hp q hq
                  have hple := hlt p hp
                  have := (List.of_mem_zip hq).1
                  have := List.mem_range'.mp this
                  omega
                have hlt' : ∀ p ∈ e.2.2.2.1, p.1 < e.2.2.2.2 := by
                  rw [hact, hmid]
                  intro p hp
                  rcases List.mem_append.mp hp with hp | hp
                  · have := hlt p hp
                    omega
                  · have := (List.of_mem_zip hp).1
                    have := List.mem_range'.mp this
                    simp only [List.length_map] at this
                    omega
                obtain ⟨hfins, hact'', _⟩ := finishLabels_spec src cl _ _ hf
                intro c hc
                rcases List.mem_cons.mp hc with rfl | hc
                · simp only [hfins]
                  exact (List.pairwise_map.mpr
                    ((hasc'.sublist (List.filter_sublist _)))).imp (fun h => h)
                · refine ih _ _ _ _ _ _ hrec ?_ ?_ c hc
                  · rw [hact'']
                    exact hasc'.sublist (List.filter_sublist _)
                  · rw [hact'']
                    intro p hp
                    exact hlt' p ((List.filter_sublist _).mem hp)

/-- Claim C6: the chunk sequence produced by the sweep is in strictly
increasing line-index order: every pair of chunks, consecutive or not,
has distinct line indices in increasing order, so no line index appears
in two chunks. -/
theorem c6_chunks_strictly_increasing (src : Source) (labels : List Label)
    (desc : BodyDescriptor) (hwf : src.WF)
    (hb : BodyDescriptor.build src labels = some desc) :
    desc.chunks.Pairwise (fun a b => a.line.index < b.line.index) := by
  unfold BodyDescriptor.build at hb
  cases he : emitEvents src (src.lines.length + 1) (labelStack labels)
      [] 0 0 USIZE_MAX with
  | none => rw [he, option_bind_none] at hb; cases hb
  | some r =>
    rw [he, option_bind_some] at hb
    cases hb
    obtain ⟨_, hchain⟩ := emitEvents_chain src hwf _ _ _ _ _ _ r 0 he
      (labelStack_sorted labels)
      (fun l _ k _ => Nat.zero_le k)
      (fun hne => absurd rfl hne)
    have htrans : IsTrans BodyChunk (fun a b =>
        a.line.index < b.line.index) := ⟨fun a b c h1 h2 => lt_trans h1 h2⟩
    exact (@List.chain'_iff_pairwise BodyChunk _ htrans _).mp hchain

/-- Claim C6 witness: the three-label scenario emits chunks for lines
0, 1, 2, 3, 4 in strictly increasing order. -/
theorem c6_witness :
    ((BodyDescriptor.build scratchSrcC scratchLabelsC).getD
        ⟨[], 0, 0, 0⟩).chunks.Pairwise
      (fun a b => a.line.index < b.line.index) :=
  c6_chunks_strictly_increasing scratchSrcC scratchLabelsC
    ((BodyDescriptor.build scratchSrcC scratchLabelsC).getD ⟨[], 0, 0, 0⟩)
    (by rfl) (by rfl)

/-- Claim C5 counterexample: in the three-label scenario, labels with
ids 1 and 2 finish on the same chunk (line 4); id 1 occupies slot 1
while id 2 occupies slot 0 (slot 0 was freed by label 0 on line 2 and
reused), so the closed slot-index sequence of that chunk is `[1, 0]` —
not strictly increasing. -/
theorem c5_counterexample :
    ((((BodyDescriptor.build scratchSrcC scratchLabelsC).getD
        ⟨[], 0, 0, 0⟩).writeTo Config.default).map Prod.snd =
      .ok [[], [], [0], [], [1, 0]]) ∧
    ¬ List.Pairwise (· < ·) ([1, 0] : List ℕ) := by
  exact ⟨by rfl, by decide⟩

/-- Claim C5 (amended): when several multi-line labels finish on the
same chunk, their closing rows are emitted in ascending label-id order
(the order in which the labels started and their lanes were
allocated): every chunk's `finishing_multiline_labels` list, which the
writer closes front to back, is strictly increasing.  The closed
slot indices themselves need not increase, since a slot freed earlier
can be reused by a later label. -/
theorem c5_fins_ascending (src : Source) (labels : List Label)
    (desc : BodyDescriptor)
    (hb : BodyDescriptor.build src labels = some desc) :
    ∀ c ∈ desc.chunks,
      c.finishing_multiline_labels.Pairwise (· < ·) := by
  unfold BodyDescriptor.build at hb
  cases he : emitEvents src (src.lines.length + 1) (labelStack labels)
      [] 0 0 USIZE_MAX with
  | none => rw [he, option_bind_none] at hb; cases hb
  | some r =>
    rw [he, option_bind_some] at hb
    cases hb
    exact emitEvents_fins_sorted src _ _ _ _ _ _ r he (by simp)
      (fun p hp => absurd hp (List.not_mem_nil p))

/-- Claim C5 witness: in the three-label scenario the last chunk
finishes ids 1 and 2 together, and every chunk's finishing list is
strictly ascending. -/
theorem c5_witness :
    (((BodyDescriptor.build scratchSrcC scratchLabelsC).getD
        ⟨[], 0, 0, 0⟩).chunks.getLast?.map
      (fun c => c.finishing_multiline_labels) = some [1, 2]) ∧
    (∀ c ∈ ((BodyDescriptor.build scratchSrcC scratchLabelsC).getD
        ⟨[], 0, 0, 0⟩).chunks,
      c.finishing_multiline_labels.Pairwise (· < ·)) :=
  ⟨by rfl, c5_fins_ascending scratchSrcC scratchLabelsC
    ((BodyDescriptor.build scratchSrcC scratchLabelsC).getD ⟨[], 0, 0, 0⟩)
    (by rfl)⟩

/-! Identification of started multiline labels by their sequential id. -/

/-- Total number of multiline labels started in the first `k` chunks. -/
def startsUpTo (chunks : List BodyChunk) (k : ℕ) : ℕ :=
  ((chunks.take k).map (fun c => c.starting_multiline_labels.length)).sum

/-- All started multiline labels of a chunk sequence, in start order;
the label with id `j` (ids are assigned sequentially from 0 by the
sweep, and re-derived identically by the writer's allocation order) is
the one at position `j`. -/
def allStarts (chunks : List BodyChunk) : List Label :=
  (chunks.map (fun c => c.starting_multiline_labels)).join

theorem startsUpTo_zero (chunks : List BodyChunk) :
    startsUpTo chunks 0 = 0 := rfl

theorem startsUpTo_cons (c : BodyChunk) (cs : List BodyChunk) (k : ℕ) :
    startsUpTo (c :: cs) (k + 1) =
      c.starting_multiline_labels.length + startsUpTo cs k := by
  simp [startsUpTo, List.take_succ_cons]

theorem allStarts_cons (c : BodyChunk) (cs : List BodyChunk) :
    allStarts (c :: cs) = c.starting_multiline_labels ++ allStarts cs := by
  simp [allStarts]

theorem mem_zip_range' {α β : Type} (f : α → β) :
    ∀ (l : List α) (m : ℕ) (p : ℕ × β),
      p ∈ (List.range' m l.length).zip (l.map f) ↔
        ∃ j, ∃ hj : j < l.length, p.1 = m + j ∧ p.2 = f (l.get ⟨j, hj⟩) := by
  intro l
  induction l with
  | nil => intro m p; simp
  | cons a l ih =>
    intro m p
    simp only [List.length_cons, List.range'_succ, List.map_cons,
      List.zip_cons_cons, List.mem_cons]
    constructor
    · rintro (rfl | hp)
      · exact ⟨0, Nat.succ_pos _, by simp⟩
      · obtain ⟨j, hj, h1, h2⟩ := (ih (m + 1) p).mp hp
        exact ⟨j + 1, by omega, by omega, by simpa using h2⟩
    · rintro ⟨j, hj, h1, h2⟩
      cases j with
      | zero =>
        left
        obtain ⟨p1, p2⟩ := p
        simp only at h1 h2
        simp [h1, h2]
      | succ j =>
        right
        refine (ih (m + 1) p).mpr ⟨j, by omega, by omega, by simpa using h2⟩

/-- Every active label and every started label of a successful sweep
finishes in some emitted chunk (the run only ends once `active` is
empty). -/
theorem emitEvents_complete (src : Source) :
    ∀ (fuel : ℕ) (stack : List Label) (active : List (ℕ × SourceSpan))
      (mid cur trim : ℕ) r,
      emitEvents src fuel stack active mid cur trim = some r →
      (∀ p ∈ active, ∃ k, ∃ hk : k < r.1.length,
        p.1 ∈ (r.1.get ⟨k, hk⟩).finishing_multiline_labels) ∧
      (∀ j, j < (allStarts r.1).length →
        ∃ k, ∃ hk : k < r.1.length,
          mid + j ∈ (r.1.get ⟨k, hk⟩).finishing_multiline_labels) := by
  intro fuel
  induction fuel with
  | zero => intro stack active mid cur trim r h; cases h
  | succ fuel ih =>
    intro stack active mid cur trim r h
    rw [emitEvents] at h
    by_cases hdone : stack.isEmpty && active.isEmpty
    · rw [if_pos hdone] at h
      cases h
      have hae : active = [] :=
        List.isEmpty_iff.mp (Bool.and_elim_right hdone)
      constructor
      · intro p hp
        rw [hae] at hp
        cases hp
      · intro j hj
        simp [allStarts] at hj
    · rw [if_neg hdone] at h
      cases hcl : nextCurrentLine src stack active cur with
      | none => rw [hcl, option_bind_none] at h; cases h
      | some cl =>
        rw [hcl, option_bind_some] at h
        cases hline : src.lines.get? cl with
        | none => rw [hline, option_bind_none] at h; cases h
        | some line =>
          rw [hline, option_bind_some] at h
          cases he : emitLabelsInCurrent src cl stack active mid with
          | none => rw [he, option_bind_none] at h; cases h
          | some e =>
            rw [he, option_bind_some] at h
            cases hf : finishLabelsInCurrent src cl e.2.2.2.1 with
            | none => rw [hf, option_bind_none] at h; cases h
            | some f =>
              rw [hf, option_bind_some] at h
              cases hrec : emitEvents src fuel e.1 f.2 e.2.2.2.2 cl
                  (if line.text.isEmpty then trim
                   else min trim line.indent_size) with
              | none => rw [hrec, option_bind_none] at h; cases h
              | some rest =>
                rw [hrec, option_bind_some] at h
                cases h
                obtain ⟨popped, hpop, _, _, _, hact, hmid, _⟩ :=
                  emitLabels_spec src cl stack active mid e he
                obtain ⟨hfins, hact'', _⟩ := finishLabels_spec src cl _ _ hf
                obtain ⟨ihact, ihstart⟩ := ih _ _ _ _ _ _ hrec
                -- dispatch an active-list entry: finish now or recurse
                have hdispatch : ∀ p ∈ e.2.2.2.1,
                    ∃ k, ∃ hk : k < (⟨line, e.2.1, e.2.2.1, f.1⟩ :: rest.1 :
                        List BodyChunk).length,
                      p.1 ∈ ((⟨line, e.2.1, e.2.2.1, f.1⟩ :: rest.1 :
                        List BodyChunk).get ⟨k, hk⟩).finishing_multiline_labels := by
                  intro p hp
                  by_cases hfin : src.line_index_at p.2.stop = some cl
                  · refine ⟨0, by simp, ?_⟩
                    simp only [List.get]
                    rw [hfins]
                    exact List.mem_map.mpr
                      ⟨p, List.mem_filter.mpr ⟨hp, by simpa using hfin⟩, rfl⟩
                  · have hp2 : p ∈ f.2 := by
                      rw [hact'']
                      exact List.mem_filter.mpr ⟨hp, by simpa using hfin⟩
                    obtain ⟨k, hk, hmem⟩ := ihact p hp2
                    exact ⟨k + 1, by simpa using Nat.succ_lt_succ hk, hmem⟩
                constructor
                · intro p hp
                  exact hdispatch p (by rw [hact]; exact List.mem_append_left _ hp)
                · intro j hj
                  rw [allStarts_cons, List.length_append] at hj
                  have hj2 : j < e.2.2.1.length + (allStarts rest.1).length := hj
                  by_cases hjlt : j < e.2.2.1.length
                  · have hmem : (mid + j,
                        (e.2.2.1.get ⟨j, hjlt⟩).span) ∈ e.2.2.2.1 := by
                      rw [hact]
                      refine List.mem_append_right _ ?_
                      exact (mem_zip_range' (fun l => l.span) e.2.2.1 mid
                        (mid + j, (e.2.2.1.get ⟨j, hjlt⟩).span)).mpr
                        ⟨j, hjlt, rfl, rfl⟩
                    exact hdispatch _ hmem
                  · have hj' : j - e.2.2.1.length < (allStarts rest.1).length := by
                      omega
                    obtain ⟨k, hk, hmem⟩ := ihstart _ hj'
                    refine ⟨k + 1, by simpa using Nat.succ_lt_succ hk, ?_⟩
                    have : e.2.2.2.2 + (j - e.2.2.1.length) = mid + j := by
                      rw [hmid]; omega
                    rw [← this]
                    exact hmem

/-- The central identification of the sweep's finishing ids: an id is
in a chunk's finishing list exactly when it denotes a label — either
one already active when the run started, or the `j`-th label started
during the run, which carries id `mid + j` — whose span-end line
`line_index_at(span.end)` (note: `end`, not the `end - 1` rule) is
that chunk's line. -/
theorem emitEvents_fins_iff (src : Source) (hwf : src.WF) :
    ∀ (fuel : ℕ) (stack : List Label) (active : List (ℕ × SourceSpan))
      (mid cur trim : ℕ) r (B : ℕ),
      emitEvents src fuel stack active mid cur trim = some r →
      stack.Pairwise (fun a b => a.span.start ≤ b.span.start) →
      (∀ l ∈ stack, ∀ k, src.line_index_at l.span.start = some k → B ≤ k) →
      (active ≠ [] → B = cur + 1) →
      (∀ p ∈ active, p.1 < mid) →
      ∀ k (hk : k < r.1.length) id,
        id ∈ (r.1.get ⟨k, hk⟩).finishing_multiline_labels ↔
          ((∃ sp, (id, sp) ∈ active ∧
              src.line_index_at sp.stop =
                some ((r.1.get ⟨k, hk⟩).line.index)) ∨
           (mid ≤ id ∧ id - mid < startsUpTo r.1 (k + 1) ∧
            ∃ lab, (allStarts r.1).get? (id - mid) = some lab ∧
              src.line_index_at lab.span.stop =
                some ((r.1.get ⟨k, hk⟩).line.index))) := by
  intro fuel
  induction fuel with
  | zero => intro stack active mid cur trim r B h; cases h
  | succ fuel ih =>
    intro stack active mid cur trim r B h hsort hstack hactive hids
    rw [emitEvents] at h
    by_cases hdone : stack.isEmpty && active.isEmpty
    · rw [if_pos hdone] at h
      cases h
      intro k hk
      cases hk
    · rw [if_neg hdone] at h
      cases hcl : nextCurrentLine src stack active cur with
      | none => rw [hcl, option_bind_none] at h; cases h
      | some cl =>
        rw [hcl, option_bind_some] at h
        cases hline : src.lines.get? cl with
        | none => rw [hline, option_bind_none] at h; cases h
        | some line =>
          rw [hline, option_bind_some] at h
          cases he : emitLabelsInCurrent src cl stack active mid with
          | none => rw [he, option_bind_none] at h; cases h
          | some e =>
            rw [he, option_bind_some] at h
            cases hf : finishLabelsInCurrent src cl e.2.2.2.1 with
            | none => rw [hf, option_bind_none] at h; cases h
            | some f =>
              rw [hf, option_bind_some] at h
              cases hrec : emitEvents src fuel e.1 f.2 e.2.2.2.2 cl
                  (if line.text.isEmpty then trim
                   else min trim line.indent_size) with
              | none => rw [hrec, option_bind_none] at h; cases h
              | some rest =>
                rw [hrec, option_bind_some] at h
                cases h
                dsimp only
                have hidx : line.index = cl := hwf.index_eq hline
                obtain ⟨popped, hpop, hpopline, hsing, hstart, hact, hmid,
                  hhead⟩ := emitLabels_spec src cl stack active mid e he
                obtain ⟨hfins, hact'', hvalid⟩ :=
                  finishLabels_spec src cl _ _ hf
                -- the invariant hypotheses of the recursive run
                have hstack_cl : ∀ l ∈ stack, ∀ k,
                    src.line_index_at l.span.start = some k → cl ≤ k := by
                  rcases nextCurrentLine_eq hcl with
                    ⟨hae, l0, stackT, hst, hl0⟩ | ⟨hane, hcl'⟩
                  · intro l hl k hk
                    have hbyte : l0.span.start ≤ l.span.start := by
                      rcases List.mem_cons.mp (hst ▸ hl) with rfl | hl'
                      · exact le_refl _
                      · exact (List.pairwise_cons.mp (hst ▸ hsort)).1 l hl'
                    exact line_index_at_mono hbyte hl0 hk
                  · intro l hl k hk
                    have := hstack l hl k hk
                    have := hactive hane
                    omega
                have hsub : e.1.Sublist stack := by
                  rw [hpop]
                  exact List.sublist_append_right popped e.1
                have hsort' : e.1.Pairwise
                    (fun a b => a.span.start ≤ b.span.start) :=
                  hsort.sublist hsub
                have hstack' : ∀ l ∈ e.1, ∀ k,
                    src.line_index_at l.span.start = some k → cl + 1 ≤ k := by
                  cases hstk : e.1 with
                  | nil => intro l hl; cases hl
                  | cons h0 t0 =>
                    obtain ⟨k0, hk0, hk0ne⟩ := hhead h0 (by rw [hstk]; rfl)
                    have hk0ge : cl ≤ k0 :=
                      hstack_cl h0 (hsub.mem (hstk ▸ List.mem_cons_self _ _))
                        k0 hk0
                    intro l hl k hk
                    rcases List.mem_cons.mp hl with rfl | hl'
                    · rw [hk0] at hk
                      cases hk
                      omega
                    · have hbyte : h0.span.start ≤ l.span.start :=
                        (List.pairwise_cons.mp (hstk ▸ hsort')).1 l hl'
                      have := line_index_at_mono hbyte hk0 hk
                      omega
                have hids_act : ∀ p ∈ e.2.2.2.1, p.1 < e.2.2.2.2 := by
                  rw [hact, hmid]
                  intro p hp
                  rcases List.mem_append.mp hp with hp | hp
                  · have := hids p hp
                    omega
                  · obtain ⟨j, hj, hp1, _⟩ :=
                      (mem_zip_range' (fun l => l.span) e.2.2.1 mid p).mp hp
                    omega
                have hids' : ∀ p ∈ f.2, p.1 < e.2.2.2.2 := by
                  rw [hact'']
                  intro p hp
                  exact hids_act p ((List.filter_sublist _).mem hp)
                have hchain_rest : ∀ c ∈ rest.1, cl + 1 ≤ c.line.index :=
                  (emitEvents_chain src hwf fuel e.1 f.2 e.2.2.2.2 cl _
                    rest (cl + 1) hrec hsort' hstack' (fun _ => rfl)).1
                have IH := ih e.1 f.2 e.2.2.2.2 cl _ rest (cl + 1) hrec
                  hsort' hstack' (fun _ => rfl) hids'
                -- the characterisation itself, chunk by chunk
                intro k hk id
                cases k with
                | zero =>
                  have hfin0 : ((⟨line, e.2.1, e.2.2.1, f.1⟩ : BodyChunk) ::
                      rest.1).get ⟨0, hk⟩ =
                      (⟨line, e.2.1, e.2.2.1, f.1⟩ : BodyChunk) := rfl
                  rw [hfin0, allStarts_cons]
                  dsimp only
                  rw [hidx]
                  have hn1 : startsUpTo
                      ((⟨line, e.2.1, e.2.2.1, f.1⟩ : BodyChunk) ::
                        rest.1) (0 + 1) = e.2.2.1.length := by
                    simp [startsUpTo_cons, startsUpTo_zero]
                  rw [hn1]
                  constructor
                  · intro hmem
                    rw [hfins] at hmem
                    obtain ⟨p, hpfil, hfst⟩ := List.mem_map.mp hmem
                    obtain ⟨hpact, hpred⟩ := List.mem_filter.mp hpfil
                    have hend : src.line_index_at p.2.stop = some cl := by
                      simpa using hpred
                    rw [hact] at hpact
                    rcases List.mem_append.mp hpact with hp | hp
                    · left
                      refine ⟨p.2, ?_, hend⟩
                      rw [← hfst]
                      exact hp
                    · right
                      obtain ⟨j, hj, hp1, hp2⟩ :=
                        (mem_zip_range' (fun l => l.span) e.2.2.1 mid p).mp hp
                      refine ⟨by omega, by omega, ?_⟩
                      refine ⟨e.2.2.1.get ⟨j, hj⟩, ?_, ?_⟩
                      · have hjid : id - mid = j := by omega
                        rw [hjid, List.get?_append (by simpa using hj)]
                        exact List.get?_eq_get hj
                      · rw [← hp2]
                        exact hend
                  · intro hr
                    rw [hfins]
                    rcases hr with ⟨sp, hspact, hspend⟩ |
                      ⟨hmle, hlt, lab, hget, hend⟩
                    · refine List.mem_map.mpr ⟨(id, sp), ?_, rfl⟩
                      refine List.mem_filter.mpr ⟨?_, ?_⟩
                      · rw [hact]
                        exact List.mem_append_left _ hspact
                      · simpa using hspend
                    · have hgetlab : e.2.2.1.get ⟨id - mid, hlt⟩ = lab := by
                        rw [List.get?_append (by simpa using hlt)] at hget
                        rw [List.get?_eq_get hlt] at hget
                        exact Option.some.injEq _ _ ▸ hget
                      refine List.mem_map.mpr ⟨(id, lab.span), ?_, rfl⟩
                      refine List.mem_filter.mpr ⟨?_, ?_⟩
                      · rw [hact]
                        refine List.mem_append_right _ ?_
                        refine (mem_zip_range' (fun l => l.span) e.2.2.1 mid
                          (id, lab.span)).mpr ⟨id - mid, hlt, by omega, ?_⟩
                        rw [hgetlab]
                      · simpa using hend
                | succ k' =>
                  have hk' : k' < rest.1.length := by simpa using hk
                  have hgt : cl + 1 ≤ (rest.1.get ⟨k', hk'⟩).line.index :=
                    hchain_rest _ (rest.1.get_mem k' hk')
                  have hchg : ((⟨line, e.2.1, e.2.2.1, f.1⟩ : BodyChunk) ::
                        rest.1).get ⟨k' + 1, hk⟩ = rest.1.get ⟨k', hk'⟩ := rfl
                  rw [hchg, allStarts_cons]
                  dsimp only
                  have hsup := startsUpTo_cons
                    (⟨line, e.2.1, e.2.2.1, f.1⟩ : BodyChunk) rest.1 (k' + 1)
                  dsimp only at hsup
                  rw [hsup, IH k' hk' id]
                  constructor
                  · intro hr
                    rcases hr with ⟨sp, hspf2, hspend⟩ |
                      ⟨hmle, hlt, lab, hget, hend⟩
                    · rw [hact''] at hspf2
                      obtain ⟨hspact, _⟩ := List.mem_filter.mp hspf2
                      rw [hact] at hspact
                      rcases List.mem_append.mp hspact with hp | hp
                      · exact Or.inl ⟨sp, hp, hspend⟩
                      · right
                        obtain ⟨j, hj, hp1, hp2⟩ :=
                          (mem_zip_range' (fun l => l.span) e.2.2.1 mid
                            (id, sp)).mp hp
                        have hp1' : id = mid + j := hp1
                        refine ⟨by omega, by omega, ?_⟩
                        refine ⟨e.2.2.1.get ⟨j, hj⟩, ?_, ?_⟩
                        · have hjid : id - mid = j := by omega
                          rw [hjid, List.get?_append (by simpa using hj)]
                          exact List.get?_eq_get hj
                        · have hp2' : sp = (e.2.2.1.get ⟨j, hj⟩).span := hp2
                          rw [← hp2']
                          exact hspend
                    · rw [hmid] at hmle hget hlt
                      refine Or.inr ⟨by omega, by omega, ?_⟩
                      refine ⟨lab, ?_, hend⟩
                      rw [List.get?_append_right (by omega), Nat.sub_sub]
                      exact hget
                  · intro hr
                    rcases hr with ⟨sp, hspact, hspend⟩ |
                      ⟨hmle, hlt, lab, hget, hend⟩
                    · left
                      refine ⟨sp, ?_, hspend⟩
                      rw [hact'']
                      refine List.mem_filter.mpr ⟨?_, ?_⟩
                      · rw [hact]
                        exact List.mem_append_left _ hspact
                      · simp only [decide_eq_true_eq]
                        rw [hspend]
                        intro hcon
                        simp only [Option.some.injEq] at hcon
                        omega
                    · by_cases hjn : id - mid < e.2.2.1.length
                      · have hgetlab : e.2.2.1.get ⟨id - mid, hjn⟩ = lab := by
                          rw [List.get?_append (by simpa using hjn)] at hget
                          rw [List.get?_eq_get hjn] at hget
                          exact Option.some.injEq _ _ ▸ hget
                        left
                        refine ⟨lab.span, ?_, hend⟩
                        rw [hact'']
                        refine List.mem_filter.mpr ⟨?_, ?_⟩
                        · rw [hact]
                          refine List.mem_append_right _ ?_
                          refine (mem_zip_range' (fun l => l.span) e.2.2.1 mid
                            (id, lab.span)).mpr
                            ⟨id - mid, hjn, by omega, ?_⟩
                          rw [hgetlab]
                        · simp only [decide_eq_true_eq]
                          rw [hend]
                          intro hcon
                          simp only [Option.some.injEq] at hcon
                          omega
                      · right
                        rw [hmid]
                        refine ⟨by omega, by omega, ?_⟩
                        refine ⟨lab, ?_, hend⟩
                        rw [List.get?_append_right (by omega),
                          Nat.sub_sub] at hget
                        exact hget

/-- Claim C1 counterexample: in `"ab\ncd\nef"` the multi-line label
over bytes 0..6 has `end = 6` landing exactly on the start of line 2;
its terminal line by the `end - 1` rule is line 1 (its line range is
`[0, 2)`), yet the sweep emits a chunk for line 2 on the label's
account and records the finishing id there — not on line 1's chunk. -/
theorem c1_counterexample :
    scratchSrcB.line_range_of_span ⟨0, 6⟩ = some (0, 2) ∧
    (BodyDescriptor.build scratchSrcB [scratchLabel 0 6]).map
      (fun d => d.chunks.map (fun c =>
        (c.line.index, c.finishing_multiline_labels))) =
      some [(0, []), (1, []), (2, [0])] :=
  ⟨by rfl, by rfl⟩

/-- Claim C1 (amended): the sweep records the id of the `j`-th started
multi-line label in `finishing_multiline_ids` exactly on the chunk for
the line computed by `line_index_at(span.end)` — the greatest line
start at most `end`, not the `end - 1` rule of the claim: a label
whose end byte lands exactly on a line-start boundary claims the extra
line beginning at `end`, and the walk emits chunks up to that line on
the label's account.  Moreover every started label's id is recorded in
some chunk. -/
theorem c1_finishing_ids (src : Source) (labels : List Label)
    (desc : BodyDescriptor) (hwf : src.WF)
    (hb : BodyDescriptor.build src labels = some desc) :
    (∀ k (hk : k < desc.chunks.length) id,
      id ∈ (desc.chunks.get ⟨k, hk⟩).finishing_multiline_labels ↔
        (id < startsUpTo desc.chunks (k + 1) ∧
         ∃ lab, (allStarts desc.chunks).get? id = some lab ∧
           src.line_index_at lab.span.stop =
             some ((desc.chunks.get ⟨k, hk⟩).line.index))) ∧
    (∀ id, id < (allStarts desc.chunks).length →
      ∃ k, ∃ hk : k < desc.chunks.length,
        id ∈ (desc.chunks.get ⟨k, hk⟩).finishing_multiline_labels) := by
  unfold BodyDescriptor.build at hb
  cases he : emitEvents src (src.lines.length + 1) (labelStack labels)
      [] 0 0 USIZE_MAX with
  | none => rw [he, option_bind_none] at hb; cases hb
  | some r =>
    rw [he, option_bind_some] at hb
    cases hb
    have hiff := emitEvents_fins_iff src hwf _ _ _ _ _ _ r 0 he
      (labelStack_sorted labels)
      (fun l _ k _ => Nat.zero_le k)
      (fun hne => absurd rfl hne)
      (fun p hp => absurd hp (List.not_mem_nil p))
    have hcomp := (emitEvents_complete src _ _ _ _ _ _ _ he).2
    constructor
    · intro k hk id
      rw [hiff k hk id]
      simp [Nat.sub_zero]
    · intro id hid
      obtain ⟨k, hk, hmem⟩ := hcomp id hid
      exact ⟨k, hk, by simpa using hmem⟩

/-- Claim C1 witness: in the three-label scenario each finishing id
sits exactly on the chunk of its span-end line and every started label
finishes somewhere. -/
theorem c1_witness :
    (∀ k (hk : k < ((BodyDescriptor.build scratchSrcC scratchLabelsC).getD
        ⟨[], 0, 0, 0⟩).chunks.length) id,
      id ∈ (((BodyDescriptor.build scratchSrcC scratchLabelsC).getD
          ⟨[], 0, 0, 0⟩).chunks.get ⟨k, hk⟩).finishing_multiline_labels ↔
        (id < startsUpTo ((BodyDescriptor.build scratchSrcC
            scratchLabelsC).getD ⟨[], 0, 0, 0⟩).chunks (k + 1) ∧
         ∃ lab, (allStarts ((BodyDescriptor.build scratchSrcC
             scratchLabelsC).getD ⟨[], 0, 0, 0⟩).chunks).get? id = some lab ∧
           scratchSrcC.line_index_at lab.span.stop =
             some ((((BodyDescriptor.build scratchSrcC scratchLabelsC).getD
               ⟨[], 0, 0, 0⟩).chunks.get ⟨k, hk⟩).line.index))) ∧
    (∀ id, id < (allStarts ((BodyDescriptor.build scratchSrcC
        scratchLabelsC).getD ⟨[], 0, 0, 0⟩).chunks).length →
      ∃ k, ∃ hk : k < ((BodyDescriptor.build scratchSrcC
          scratchLabelsC).getD ⟨[], 0, 0, 0⟩).chunks.length,
        id ∈ (((BodyDescriptor.build scratchSrcC scratchLabelsC).getD
          ⟨[], 0, 0, 0⟩).chunks.get ⟨k, hk⟩).finishing_multiline_labels) :=
  c1_finishing_ids scratchSrcC scratchLabelsC
    ((BodyDescriptor.build scratchSrcC scratchLabelsC).getD ⟨[], 0, 0, 0⟩)
    (by rfl) (by rfl)

/-! Geometry of the constructed lines: ordered, disjoint spans. -/

theorem linesOfGo_span_le :
    ∀ (s cur : List Char) (ls idx : ℕ), ∀ l ∈ linesOfGo ls idx cur s,
      l.full_span.start ≤ l.full_span.stop := by
  intro s
  induction s with
  | nil =>
    intro cur ls idx l h
    simp only [linesOfGo] at h
    by_cases hc : cur.isEmpty
    · simp [hc] at h
    · rw [if_neg hc] at h
      rcases List.mem_singleton.mp h with rfl
      simp [mkSourceLine]
  | cons c rest ih =>
    intro cur ls idx l h
    simp only [linesOfGo] at h
    by_cases hc : c = '\n'
    · rw [if_pos hc] at h
      rcases List.mem_cons.mp h with rfl | h
      · simp [mkSourceLine]
      · exact ih [] (ls + cur.length + 1) (idx + 1) l h
    · rw [if_neg hc] at h
      exact ih (cur ++ [c]) ls idx l h

theorem linesOfGo_head_start :
    ∀ (s cur : List Char) (ls idx : ℕ) (l : SourceLine),
      (linesOfGo ls idx cur s).head? = some l → l.full_span.start = ls := by
  intro s
  induction s with
  | nil =>
    intro cur ls idx l h
    simp only [linesOfGo] at h
    by_cases hc : cur.isEmpty
    · simp [hc] at h
    · rw [if_neg hc] at h
      cases h
      rfl
  | cons c rest ih =>
    intro cur ls idx l h
    simp only [linesOfGo] at h
    by_cases hc : c = '\n'
    · rw [if_pos hc] at h
      cases h
      rfl
    · rw [if_neg hc] at h
      exact ih (cur ++ [c]) ls idx l h

theorem linesOfGo_chain :
    ∀ (s cur : List Char) (ls idx : ℕ),
      (linesOfGo ls idx cur s).Chain'
        (fun a b => a.full_span.stop < b.full_span.start) := by
  intro s
  induction s with
  | nil =>
    intro cur ls idx
    simp only [linesOfGo]
    by_cases hc : cur.isEmpty <;> simp [hc]
  | cons c rest ih =>
    intro cur ls idx
    simp only [linesOfGo]
    by_cases hc : c = '\n'
    · rw [if_pos hc]
      rw [List.chain'_cons']
      refine ⟨?_, ih [] (ls + cur.length + 1) (idx + 1)⟩
      intro l' hl'
      have hst := linesOfGo_head_start rest [] (ls + cur.length + 1)
        (idx + 1) l' hl'
      have hlen := stripCR_length_le cur
      simp only [mkSourceLine]
      omega
    · rw [if_neg hc]
      exact ih (cur ++ [c]) ls idx

theorem linesOfGo_stop_le :
    ∀ (s cur : List Char) (ls idx : ℕ), ∀ l ∈ linesOfGo ls idx cur s,
      l.full_span.stop ≤ ls + cur.length + s.length := by
  intro s
  induction s with
  | nil =>
    intro cur ls idx l h
    simp only [linesOfGo] at h
    by_cases hc : cur.isEmpty
    · simp [hc] at h
    · rw [if_neg hc] at h
      rcases List.mem_singleton.mp h with rfl
      simp [mkSourceLine]
  | cons c rest ih =>
    intro cur ls idx l h
    simp only [linesOfGo] at h
    by_cases hc : c = '\n'
    · rw [if_pos hc] at h
      rcases List.mem_cons.mp h with rfl | h
      · have := stripCR_length_le cur
        simp only [mkSourceLine, List.length_cons]
        omega
      · have := ih [] (ls + cur.length + 1) (idx + 1) l h
        simp at this ⊢
        omega
    · rw [if_neg hc] at h
      have := ih (cur ++ [c]) ls idx l h
      simp at this ⊢
      omega

/-- A chained lower bound: the head of a chained span list lies below
every later element (spans are well-formed, start at most stop). -/
theorem chain_lt_all :
    ∀ (L : List SourceLine) (a : SourceLine),
      (∀ l ∈ L, l.full_span.start ≤ l.full_span.stop) →
      List.Chain' (fun x y => x.full_span.stop < y.full_span.start)
        (a :: L) →
      ∀ b ∈ L, a.full_span.stop < b.full_span.start := by
  intro L
  induction L with
  | nil => intro a _ _ b hb; cases hb
  | cons b L ih =>
    intro a hwfel hch c hc
    rw [List.chain'_cons] at hch
    obtain ⟨hab, hch'⟩ := hch
    rcases List.mem_cons.mp hc with rfl | hc'
    · exact hab
    · have hbc := ih b (fun l hl => hwfel l (List.mem_cons_of_mem _ hl))
        hch' c hc'
      have hbwf : b.full_span.start ≤ b.full_span.stop :=
        hwfel b (List.mem_cons_self _ _)
      omega

/-- Chained disjoint spans with well-formed elements are pairwise
disjoint. -/
theorem chainSpans_pairwise :
    ∀ L : List SourceLine,
      (∀ l ∈ L, l.full_span.start ≤ l.full_span.stop) →
      L.Chain' (fun a b => a.full_span.stop < b.full_span.start) →
      L.Pairwise (fun a b => a.full_span.stop < b.full_span.start) := by
  intro L
  induction L with
  | nil => intro _ _; exact List.Pairwise.nil
  | cons a L ih =>
    intro hwfel hch
    have htail : L.Chain'
        (fun x y => x.full_span.stop < y.full_span.start) :=
      (List.chain'_cons'.mp hch).2
    refine List.pairwise_cons.mpr ⟨?_, ih (fun l hl =>
      hwfel l (List.mem_cons_of_mem _ hl)) htail⟩
    exact chain_lt_all L a
      (fun l hl => hwfel l (List.mem_cons_of_mem _ hl)) hch

theorem takeWhile_length_ge {α : Type} (p : α → Bool) :
    ∀ (L : List α) (j : ℕ), j < L.length →
      (∀ m, m ≤ j → ∀ x, L.get? m = some x → p x = true) →
      j + 1 ≤ (L.takeWhile p).length := by
  intro L
  induction L with
  | nil => intro j hj; simp at hj
  | cons a L ih =>
    intro j hj hall
    have hpa : p a = true := hall 0 (Nat.zero_le _) a rfl
    rw [List.takeWhile_cons, if_pos hpa]
    cases j with
    | zero => simp
    | succ j =>
      have := ih j (by simpa using hj)
        (fun m hm x hx => hall (m + 1) (by omega) x (by simpa using hx))
      simp only [List.length_cons]
      omega

theorem takeWhile_length_le {α : Type} (p : α → Bool) :
    ∀ (L : List α) (n : ℕ) (x : α), L.get? n = some x → p x = false →
      (L.takeWhile p).length ≤ n := by
  intro L
  induction L with
  | nil => intro n x hx; cases hx
  | cons a L ih =>
    intro n x hx hp
    cases n with
    | zero =>
      cases hx
      rw [List.takeWhile_cons, if_neg (by simp [hp])]
      simp
    | succ n =>
      rw [List.takeWhile_cons]
      by_cases hpa : p a = true
      · rw [if_pos hpa]
        have := ih n x (by simpa using hx) hp
        simp only [List.length_cons]
        omega
      · rw [if_neg hpa]
        simp

/-- The converse direction of the `partition_point` binary search: a
byte inside a line's full span maps back to exactly that line's
index. -/
theorem line_index_at_of_contains {src : Source} (hwf : src.WF)
    {j : ℕ} {l : SourceLine} (hj : src.lines.get? j = some l)
    {i : ℕ} (hi : l.full_span.contains i) :
    src.line_index_at i = some j := by
  have hmem : l ∈ src.lines := List.get?_mem hj
  have hwfel : ∀ l' ∈ src.lines,
      l'.full_span.start ≤ l'.full_span.stop := by
    intro l' hl'
    rw [hwf] at hl'
    exact linesOfGo_span_le src.src [] 0 0 l' hl'
  have hpw := chainSpans_pairwise src.lines hwfel
    (by rw [hwf]; exact linesOfGo_chain src.src [] 0 0)
  have hstople : ∀ l' ∈ src.lines, l'.full_span.stop ≤ src.src.length := by
    intro l' hl'
    rw [hwf] at hl'
    have := linesOfGo_stop_le src.src [] 0 0 l' hl'
    simpa using this
  obtain ⟨hcs, hci⟩ := hi
  have hile : i ≤ src.src.length := by
    have := hstople l hmem
    omega
  have hrel : ∀ m n x y, m < n → src.lines.get? m = some x →
      src.lines.get? n = some y →
      x.full_span.stop < y.full_span.start := by
    intro m n x y hmn hx hy
    obtain ⟨hm, hx'⟩ := List.get?_eq_some.mp hx
    obtain ⟨hn, hy'⟩ := List.get?_eq_some.mp hy
    have := List.pairwise_iff_get.mp hpw ⟨m, hm⟩ ⟨n, hn⟩ (by simpa using hmn)
    rw [hx', hy'] at this
    exact this
  have hjlen : j < src.lines.length := (List.get?_eq_some.mp hj).1
  have hA : j + 1 ≤ (src.lines.takeWhile
      (fun l' => decide (l'.full_span.start ≤ i))).length := by
    refine takeWhile_length_ge _ src.lines j hjlen ?_
    intro m hm x hx
    rcases Nat.lt_or_ge m j with hmj | hmj
    · have hx_rel := hrel m j x l hmj hx hj
      have hxwf := hwfel x (List.get?_mem hx)
      simp only [decide_eq_true_eq]
      omega
    · have hmj' : m = j := by omega
      subst hmj'
      rw [hj] at hx
      cases hx
      simp only [decide_eq_true_eq]
      exact hcs
  have hB : (src.lines.takeWhile
      (fun l' => decide (l'.full_span.start ≤ i))).length ≤ j + 1 := by
    cases hnext : src.lines.get? (j + 1) with
    | none =>
      have hlen := List.get?_eq_none.mp hnext
      calc (src.lines.takeWhile _).length
          ≤ src.lines.length := (List.takeWhile_sublist _).length_le
        _ ≤ j + 1 := hlen
    | some y =>
      refine takeWhile_length_le _ src.lines (j + 1) y hnext ?_
      have := hrel j (j + 1) l y (by omega) hj hnext
      simp only [decide_eq_false_iff_not]
      omega
  have heq : (src.lines.takeWhile
      (fun l' => decide (l'.full_span.start ≤ i))).length = j + 1 := by
    omega
  unfold Source.line_index_at
  rw [if_neg (by omega), heq]

/-- Claim C3 counterexample: over `"ab\ncd"` the span `[2, 4)` is valid
(both offsets within the text), yet the returned range starts at line
0 whose full span `[0, 2)` does not contain byte 2 — byte 2 is the
newline, which belongs to no line. -/
theorem c3_counterexample :
    ((2 : ℕ) ≤ 4 ∧ (4 : ℕ) ≤ scratchSrcE.src.length) ∧
    scratchSrcE.line_range_of_span ⟨2, 4⟩ = some (0, 2) ∧
    scratchSrcE.lines.get? 0 = some ⟨0, 0, ⟨0, 2⟩, ⟨0, 2⟩, "ab".toList⟩ ∧
    ¬ (SourceSpan.contains ⟨0, 2⟩ 2) :=
  ⟨by decide, by rfl, by rfl, by decide⟩

/-- Claim C3 (amended): when the span's boundary bytes — `start` and
`max(start, end - 1)` — each lie within some line's full span,
`line_range_of_span` returns exactly the inclusive-exclusive range
from the line containing `start` to one past the line containing
`max(start, end - 1)`, so the boundary lines' full spans contain the
boundary bytes.  (A boundary byte that is a line terminator or the
end-of-text position lies in no line's full span; `line_index_at`
still resolves it to the nearest preceding line, and the returned
boundary line then does not contain it.) -/
theorem c3_line_range_boundaries (src : Source) (span : SourceSpan)
    (hwf : src.WF) (ja jb : ℕ) (la lb : SourceLine)
    (hja : src.lines.get? ja = some la)
    (hca : la.full_span.contains span.start)
    (hjb : src.lines.get? jb = some lb)
    (hcb : lb.full_span.contains (max (span.stop - 1) span.start)) :
    src.line_range_of_span span = some (ja, jb + 1) := by
  unfold Source.line_range_of_span
  rw [line_index_at_of_contains hwf hja hca,
    line_index_at_of_contains hwf hjb hcb]

/-- Claim C3 witness: the span `[21, 28)` of the sample source lies on
line 1 at both boundaries, and the returned range is `[1, 2)`. -/
theorem c3_witness : sampleSrc.line_range_of_span ⟨21, 28⟩ = some (1, 1 + 1) :=
  c3_line_range_boundaries sampleSrc ⟨21, 28⟩ (by rfl) 1 1
    ⟨1, 0, ⟨21, 28⟩, ⟨21, 28⟩, "this is".toList⟩
    ⟨1, 0, ⟨21, 28⟩, ⟨21, 28⟩, "this is".toList⟩
    (by rfl) (by decide) (by rfl) (by decide)

namespace Writer

theorem runChunks_error_of_mem {cfg : Config} {w t : ℕ}
    {chunks : List BodyChunk} {chunk : BodyChunk} (hmem : chunk ∈ chunks)
    (herr : ∀ st : WriterState, ∃ e, processChunk cfg w t st chunk = .error e) :
    ∀ st : WriterState, ∃ e, runChunks cfg w t st chunks = .error e := by
  induction chunks with
  | nil => cases hmem
  | cons c cs ih =>
    intro st
    rcases List.mem_cons.mp hmem with rfl | hmem'
    · obtain ⟨e, he⟩ := herr st
      exact ⟨e, by simp [runChunks, he, except_bind_error]⟩
    · cases hpc : processChunk cfg w t st c with
      | error e => exact ⟨e, by simp [runChunks, hpc, except_bind_error]⟩
      | ok r =>
        obtain ⟨e, he⟩ := ih hmem' r.1
        exact ⟨e, by simp [runChunks, hpc, he, except_bind_ok, except_bind_error]⟩

theorem emitSinglelineLabel_error {cfg : Config} {w : ℕ} {line : SourceLine}
    {fins : List ℕ} {st : WriterState} {label : Label}
    (h : line.text.length < line.dedented_span.start) :
    emitSinglelineLabel cfg w line fins st label = .error .panicSub := by
  unfold emitSinglelineLabel
  by_cases h1 : line.dedented_span.start ≤ label.span.start
  · have h2 : ¬ line.dedented_span.start ≤ min label.span.stop line.text.length := by
      have := min_le_right label.span.stop line.text.length
      omega
    simp [checkSub, h1, h2, except_bind_ok, except_bind_error]
  · simp [checkSub, h1, except_bind_error]

theorem emitSinglelineLabels_error {cfg : Config} {w : ℕ} {st : WriterState}
    {chunk : BodyChunk} (hne : chunk.singleline_labels ≠ [])
    (h : chunk.line.text.length < chunk.line.dedented_span.start) :
    emitSinglelineLabels cfg w st chunk = .error .panicSub := by
  unfold emitSinglelineLabels
  cases hsl : chunk.singleline_labels with
  | nil => exact absurd hsl hne
  | cons l ls =>
    simp only [List.foldlM_cons]
    rw [emitSinglelineLabel_error h]
    rfl

theorem processChunk_error {cfg : Config} {w t : ℕ} {chunk : BodyChunk}
    (hne : chunk.singleline_labels ≠ [])
    (h : chunk.line.text.length < chunk.line.dedented_span.start) :
    ∀ st : WriterState, ∃ e, processChunk cfg w t st chunk = .error e := by
  intro st
  unfold processChunk
  cases h1 : startMultilineLabels st chunk with
  | error e => exact ⟨e, by simp [h1, except_bind_error]⟩
  | ok st1 =>
    cases h2 : emitSourceLine cfg w t st1 chunk with
    | error e => exact ⟨e, by simp [h1, h2, except_bind_ok, except_bind_error]⟩
    | ok st2 =>
      refine ⟨.panicSub, ?_⟩
      simp [h1, h2, except_bind_ok, except_bind_error,
        emitSinglelineLabels_error hne h]

/-! Slot accounting for the no-overflow proof. -/

/-- The ids currently occupying slots, in slot order. -/
def slotIds (slots : List (Option ActiveMultiline)) : List ℕ :=
  slots.filterMap (fun s => s.map (fun a => a.label_id))

theorem slotIds_replicate_none (n : ℕ) :
    slotIds (List.replicate n none) = [] := by
  induction n with
  | zero => rfl
  | succ n ih => simpa [slotIds, List.replicate_succ] using ih

theorem slotIds_length_le (slots : List (Option ActiveMultiline)) :
    (slotIds slots).length ≤ slots.length := by
  induction slots with
  | nil => simp [slotIds]
  | cons s rest ih =>
    cases s <;> simp [slotIds, List.filterMap_cons] at ih ⊢ <;> omega

theorem slotIds_append (a b : List (Option ActiveMultiline)) :
    slotIds (a ++ b) = slotIds a ++ slotIds b := by
  simp [slotIds, List.filterMap_append]

/-- The indicator pass only clears `recently_added`; the slot ids are
unchanged. -/
theorem slotIds_indicators (cfg : Config) (fins : List ℕ) :
    ∀ slots, slotIds (slots.map
      (fun s => (indicatorStep cfg fins s).1)) = slotIds slots := by
  intro slots
  induction slots with
  | nil => rfl
  | cons s rest ih =>
    cases s <;> simp [slotIds, indicatorStep, List.filterMap_cons] at ih ⊢ <;>
      exact ih

theorem emitMultilineIndicators_state (cfg : Config) (st : WriterState)
    (fins : List ℕ) :
    slotIds (emitMultilineIndicators cfg st fins).slots = slotIds st.slots ∧
    (emitMultilineIndicators cfg st fins).slots.length = st.slots.length ∧
    (emitMultilineIndicators cfg st fins).multiline_id = st.multiline_id := by
  refine ⟨?_, by simp [emitMultilineIndicators], rfl⟩
  show slotIds ((st.slots.map (indicatorStep cfg fins)).map Prod.fst) = _
  rw [List.map_map]
  exact slotIds_indicators cfg fins st.slots

theorem emitLeftColumn_state (cfg : Config) (w : ℕ) (st : WriterState)
    (li : Option ℕ) :
    (emitLeftColumn cfg w st li).slots = st.slots ∧
    (emitLeftColumn cfg w st li).multiline_id = st.multiline_id := by
  cases li <;> exact ⟨rfl, rfl⟩

theorem checkSub_error {a b : ℕ} {e : RenderError}
    (h : checkSub a b = .error e) : e = .panicSub := by
  unfold checkSub at h
  split_ifs at h
  cases h
  rfl

theorem checkSlice_error {s : List Char} {a b : ℕ} {e : RenderError}
    (h : checkSlice s a b = .error e) : e = .panicSub := by
  unfold checkSlice at h
  split_ifs at h
  cases h
  rfl

theorem sourceLineMargin_error {t : ℕ} {line : SourceLine} {e : RenderError}
    (h : sourceLineMargin t line = .error e) : e = .panicSub := by
  unfold sourceLineMargin at h
  split_ifs at h
  exact checkSub_error h

/-- `emit_source_line` can only panic on the margin subtraction, and on
success leaves the slot ids, slot count and id counter unchanged. -/
theorem emitSourceLine_state (cfg : Config) (w t : ℕ) (st : WriterState)
    (chunk : BodyChunk) :
    (∀ e, emitSourceLine cfg w t st chunk = .error e → e = .panicSub) ∧
    (∀ st', emitSourceLine cfg w t st chunk = .ok st' →
      slotIds st'.slots = slotIds st.slots ∧
      st'.slots.length = st.slots.length ∧
      st'.multiline_id = st.multiline_id) := by
  have h1 := emitMultilineIndicators_state cfg
    (emitLeftColumn cfg w st (some chunk.line.index))
    chunk.finishing_multiline_labels
  have h2 := emitLeftColumn_state cfg w st (some chunk.line.index)
  unfold emitSourceLine
  cases hm : sourceLineMargin t chunk.line with
  | error e =>
    refine ⟨fun e' he' => ?_, fun st' hst' => ?_⟩
    · simp only [except_bind_error] at he'
      cases he'
      exact sourceLineMargin_error hm
    · simp only [except_bind_error] at hst'
      cases hst'
  | ok level =>
    refine ⟨fun e' he' => ?_, fun st' hst' => ?_⟩
    · simp only [except_bind_ok] at he'
      cases he'
    · simp only [except_bind_ok] at hst'
      cases hst'
      simp only [push]
      exact ⟨by rw [h1.1, h2.1], by rw [h1.2.1, h2.1], by rw [h1.2.2, h2.2]⟩

/-- Per-label single-line emission: panics are `panicSub` and success
leaves the slot ids, slot count and id counter unchanged. -/
theorem emitSinglelineLabel_state (cfg : Config) (w : ℕ)
    (line : SourceLine) (fins : List ℕ) (st : WriterState) (label : Label) :
    (∀ e, emitSinglelineLabel cfg w line fins st label = .error e →
      e = .panicSub) ∧
    (∀ st', emitSinglelineLabel cfg w line fins st label = .ok st' →
      slotIds st'.slots = slotIds st.slots ∧
      st'.slots.length = st.slots.length ∧
      st'.multiline_id = st.multiline_id) := by
  have h1 := emitMultilineIndicators_state cfg
    (emitLeftColumn cfg w st none) fins
  have h2 := emitLeftColumn_state cfg w st none
  unfold emitSinglelineLabel
  cases hc1 : checkSub label.span.start line.dedented_span.start with
  | error e1 =>
    refine ⟨fun e' he' => ?_, fun st' hst' => ?_⟩
    · simp only [hc1, except_bind_error] at he'
      cases he'
      exact checkSub_error hc1
    · simp only [hc1, except_bind_error] at hst'
      cases hst'
  | ok bs =>
    cases hc2 : checkSub (min label.span.stop line.text.length)
        line.dedented_span.start with
    | error e2 =>
      refine ⟨fun e' he' => ?_, fun st' hst' => ?_⟩
      · simp only [hc1, hc2, except_bind_ok, except_bind_error] at he'
        cases he'
        exact checkSub_error hc2
      · simp only [hc1, hc2, except_bind_ok, except_bind_error] at hst'
        cases hst'
    | ok us =>
      cases hc3 : checkSlice line.text 0 bs with
      | error e3 =>
        refine ⟨fun e' he' => ?_, fun st' hst' => ?_⟩
        · simp only [hc1, hc2, hc3, except_bind_ok, except_bind_error] at he'
          cases he'
          exact checkSlice_error hc3
        · simp only [hc1, hc2, hc3, except_bind_ok, except_bind_error] at hst'
          cases hst'
      | ok s3 =>
        cases hc4 : checkSlice line.text bs us with
        | error e4 =>
          refine ⟨fun e' he' => ?_, fun st' hst' => ?_⟩
          · simp only [hc1, hc2, hc3, hc4, except_bind_ok,
              except_bind_error] at he'
            cases he'
            exact checkSlice_error hc4
          · simp only [hc1, hc2, hc3, hc4, except_bind_ok,
              except_bind_error] at hst'
            cases hst'
        | ok s4 =>
          refine ⟨fun e' he' => ?_, fun st' hst' => ?_⟩
          · simp only [hc1, hc2, hc3, hc4, except_bind_ok] at he'
            cases he'
          · simp only [hc1, hc2, hc3, hc4, except_bind_ok] at hst'
            cases hst'
            simp only [push]
            refine ⟨?_, ?_, ?_⟩
            · rw [h1.1, h2.1]
            · rw [h1.2.1, h2.1]
            · rw [h1.2.2, h2.2]

/-- `emit_singleline_labels` as a whole: panics are `panicSub` and
success leaves the slot ids, slot count and id counter unchanged. -/
theorem emitSinglelineLabels_state (cfg : Config) (w : ℕ)
    (line : SourceLine) (fins : List ℕ) :
    ∀ (ls : List Label) (st : WriterState),
      (∀ e, ls.foldlM (emitSinglelineLabel cfg w line fins) st = .error e →
        e = .panicSub) ∧
      (∀ st', ls.foldlM (emitSinglelineLabel cfg w line fins) st = .ok st' →
        slotIds st'.slots = slotIds st.slots ∧
        st'.slots.length = st.slots.length ∧
        st'.multiline_id = st.multiline_id) := by
  intro ls
  induction ls with
  | nil =>
    intro st
    refine ⟨fun e he => ?_, fun st' hst' => ?_⟩
    · simp only [List.foldlM_nil] at he
      cases he
    · simp only [List.foldlM_nil] at hst'
      cases hst'
      exact ⟨rfl, rfl, rfl⟩
  | cons l ls ih =>
    intro st
    have hl := emitSinglelineLabel_state cfg w line fins st l
    cases h : emitSinglelineLabel cfg w line fins st l with
    | error e1 =>
      refine ⟨fun e he => ?_, fun st' hst' => ?_⟩
      · rw [List.foldlM_cons, h] at he
        simp only [except_bind_error] at he
        cases he
        exact hl.1 e1 h
      · rw [List.foldlM_cons, h] at hst'
        simp only [except_bind_error] at hst'
        cases hst'
    | ok st1 =>
      have hst1 := hl.2 st1 h
      refine ⟨fun e he => ?_, fun st' hst' => ?_⟩
      · rw [List.foldlM_cons, h] at he
        simp only [except_bind_ok] at he
        exact (ih st1).1 e he
      · rw [List.foldlM_cons, h] at hst'
        simp only [except_bind_ok] at hst'
        obtain ⟨a, b, c⟩ := (ih st1).2 st' hst'
        exact ⟨a.trans hst1.1, b.trans hst1.2.1, c.trans hst1.2.2⟩

theorem slotIds_cons_none (rest : List (Option ActiveMultiline)) :
    slotIds (none :: rest) = slotIds rest := by
  simp [slotIds, List.filterMap_cons]

theorem slotIds_cons_some (a : ActiveMultiline)
    (rest : List (Option ActiveMultiline)) :
    slotIds (some a :: rest) = a.label_id :: slotIds rest := by
  simp [slotIds, List.filterMap_cons]

/-- With at least one free slot, `setFirstFree` succeeds, keeps the slot
count and adds the new id to the occupancy (as a permutation). -/
theorem setFirstFree_of_lt :
    ∀ (slots : List (Option ActiveMultiline)) (a : ActiveMultiline),
      (slotIds slots).length < slots.length →
      ∃ slots' i, setFirstFree slots a = some (slots', i) ∧
        slots'.length = slots.length ∧
        List.Perm (slotIds slots') (a.label_id :: slotIds slots) := by
  intro slots
  induction slots with
  | nil => intro a h; simp [slotIds] at h
  | cons s rest ih =>
    intro a h
    cases s with
    | none =>
      refine ⟨some a :: rest, 0, rfl, by simp, ?_⟩
      rw [slotIds_cons_some, slotIds_cons_none]
    | some b =>
      rw [slotIds_cons_some] at h
      simp only [List.length_cons] at h
      obtain ⟨r', i, hr, hlen, hperm⟩ := ih a (by omega)
      refine ⟨some b :: r', i + 1, ?_, by simp [hlen], ?_⟩
      · simp [setFirstFree, hr]
      · rw [slotIds_cons_some, slotIds_cons_some]
        exact (hperm.cons b.label_id).trans
          (List.Perm.swap a.label_id b.label_id (slotIds rest))

/-- `allocate_multiline` under the capacity bound: success, with the
fresh id joining the occupancy and the id counter stepping. -/
theorem allocateMultiline_ok (st : WriterState) (label : Label)
    (h : (slotIds st.slots).length < st.slots.length) :
    ∃ st', allocateMultiline st label = .ok st' ∧
      st'.slots.length = st.slots.length ∧
      st'.multiline_id = st.multiline_id + 1 ∧
      List.Perm (slotIds st'.slots) (st.multiline_id :: slotIds st.slots) := by
  obtain ⟨slots', i, hr, hlen, hperm⟩ :=
    setFirstFree_of_lt st.slots ⟨st.multiline_id, label, true⟩ h
  refine ⟨{ st with slots := slots', multiline_id := st.multiline_id + 1 },
    ?_, hlen, rfl, hperm⟩
  unfold allocateMultiline
  rw [hr]

/-- `start_multiline_labels` (as the fold of `allocate_multiline`) under
the capacity bound: success, the new ids being exactly the next
`ls.length` sequential ids. -/
theorem foldAlloc_state :
    ∀ (ls : List Label) (st : WriterState),
      (slotIds st.slots).length + ls.length ≤ st.slots.length →
      ∃ st', ls.foldlM allocateMultiline st = .ok st' ∧
        st'.slots.length = st.slots.length ∧
        st'.multiline_id = st.multiline_id + ls.length ∧
        List.Perm (slotIds st'.slots)
          (List.range' st.multiline_id ls.length ++ slotIds st.slots) := by
  intro ls
  induction ls with
  | nil =>
    intro st h
    exact ⟨st, rfl, rfl, rfl, by simp⟩
  | cons l ls ih =>
    intro st h
    simp only [List.length_cons] at h
    obtain ⟨st1, h1, hlen1, hmid1, hperm1⟩ :=
      allocateMultiline_ok st l (by omega)
    have hids1 : (slotIds st1.slots).length = (slotIds st.slots).length + 1 := by
      rw [hperm1.length_eq]
      rfl
    obtain ⟨st', h2, hlen2, hmid2, hperm2⟩ := ih st1 (by omega)
    refine ⟨st', ?_, hlen2.trans hlen1,
      by simp only [List.length_cons, hmid2, hmid1]; omega, ?_⟩
    · rw [List.foldlM_cons, h1]
      simp only [except_bind_ok]
      exact h2
    · have hr1 : List.Perm
          (List.range' st1.multiline_id ls.length ++ slotIds st1.slots)
          (List.range' (st.multiline_id + 1) ls.length ++
            (st.multiline_id :: slotIds st.slots)) := by
        rw [hmid1]
        exact List.Perm.append_left _ hperm1
      have hr2 : List.Perm
          (List.range' (st.multiline_id + 1) ls.length ++
            (st.multiline_id :: slotIds st.slots))
          (st.multiline_id :: (List.range' (st.multiline_id + 1) ls.length ++
            slotIds st.slots)) := List.perm_middle
      have hr3 : st.multiline_id :: (List.range' (st.multiline_id + 1)
            ls.length ++ slotIds st.slots) =
          List.range' st.multiline_id (ls.length + 1) ++ slotIds st.slots := by
        rw [List.range'_succ st.multiline_id ls.length 1]
        rfl
      rw [List.length_cons]
      exact ((hperm2.trans hr1).trans hr2).trans (by rw [hr3])

/-- Splitting the slots at a present id: the decomposition around the
first slot carrying it. -/
theorem splitAtId_of_mem :
    ∀ (slots : List (Option ActiveMultiline)) (id : ℕ),
      id ∈ slotIds slots →
      ∃ pre a post, splitAtId slots id = some (pre, a, post) ∧
        a.label_id = id ∧ slots = pre ++ some a :: post := by
  intro slots
  induction slots with
  | nil => intro id h; simp [slotIds] at h
  | cons s rest ih =>
    intro id h
    cases s with
    | none =>
      rw [slotIds_cons_none] at h
      obtain ⟨pre, a, post, hs, hid, hdec⟩ := ih id h
      exact ⟨none :: pre, a, post, by simp [splitAtId, hs], hid,
        by rw [List.cons_append, ← hdec]⟩
    | some b =>
      rw [slotIds_cons_some] at h
      by_cases hb : b.label_id = id
      · exact ⟨[], b, rest, by simp [splitAtId, hb], hb, rfl⟩
      · have h' : id ∈ slotIds rest := by
          cases List.mem_cons.mp h with
          | inl h0 => exact absurd h0.symm hb
          | inr h0 => exact h0
        obtain ⟨pre, a, post, hs, hid, hdec⟩ := ih id h'
        exact ⟨some b :: pre, a, post, by simp [splitAtId, hb, hs], hid,
          by rw [List.cons_append, ← hdec]⟩

/-- `emit_multiline_label` on a present id: the `unwrap` cannot fire;
the closed id leaves the occupancy and everything else is preserved. -/
theorem emitMultilineLabel_ok (cfg : Config) (w : ℕ) (st : WriterState)
    (id : ℕ) (hmem : id ∈ slotIds st.slots) :
    ∃ r, emitMultilineLabel cfg w st id = .ok r ∧
      r.1.slots.length = st.slots.length ∧
      r.1.multiline_id = st.multiline_id ∧
      List.Perm (slotIds st.slots) (id :: slotIds r.1.slots) := by
  have h2 := emitLeftColumn_state cfg w st none
  obtain ⟨pre, a, post, hs, hid, hdec⟩ :=
    splitAtId_of_mem (emitLeftColumn cfg w st none).slots id
      (by rw [h2.1]; exact hmem)
  have hslots : st.slots = pre ++ some a :: post := by
    rw [← h2.1]
    exact hdec
  simp only [emitMultilineLabel, hs]
  refine ⟨_, rfl, ?_, ?_, ?_⟩
  · simp [hslots]
  · exact h2.2
  · rw [hslots, slotIds_append, slotIds_cons_some, hid]
    have hmid : List.Perm (slotIds pre ++ id :: slotIds post)
        (id :: (slotIds pre ++ slotIds post)) := List.perm_middle
    have : slotIds (pre ++ [none] ++ post) = slotIds pre ++ slotIds post := by
      rw [slotIds_append, slotIds_append]
      simp [slotIds]
    rw [← this] at hmid
    exact hmid

/-- The finishing fold on distinct, present ids: success, with the
closed ids leaving the occupancy. -/
theorem foldFinish_state (cfg : Config) (w : ℕ) :
    ∀ (fins : List ℕ) (st : WriterState) (acc : List ℕ),
      fins.Nodup → (∀ id ∈ fins, id ∈ slotIds st.slots) →
      ∃ r, fins.foldlM (fun acc id => do
          let r ← emitMultilineLabel cfg w acc.1 id
          Except.ok (r.1, acc.2 ++ [r.2])) (st, acc) = .ok r ∧
        r.1.slots.length = st.slots.length ∧
        r.1.multiline_id = st.multiline_id ∧
        List.Perm (slotIds st.slots) (fins ++ slotIds r.1.slots) := by
  intro fins
  induction fins with
  | nil =>
    intro st acc hnd hpres
    exact ⟨(st, acc), rfl, rfl, rfl, by simp⟩
  | cons id fins ih =>
    intro st acc hnd hpres
    obtain ⟨r1, h1, hlen1, hmid1, hperm1⟩ :=
      emitMultilineLabel_ok cfg w st id (hpres id (List.mem_cons_self id fins))
    have hnd' := List.nodup_cons.mp hnd
    have hpres' : ∀ i ∈ fins, i ∈ slotIds r1.1.slots := by
      intro i hi
      have hin : i ∈ slotIds st.slots := hpres i (List.mem_cons_of_mem id hi)
      rcases List.mem_cons.mp (hperm1.mem_iff.mp hin) with h0 | h0
      · exact absurd (h0 ▸ hi) hnd'.1
      · exact h0
    obtain ⟨r, h2, hlen2, hmid2, hperm2⟩ := ih r1.1 (acc ++ [r1.2]) hnd'.2 hpres'
    refine ⟨r, ?_, hlen2.trans hlen1, hmid2.trans hmid1, ?_⟩
    · rw [List.foldlM_cons]
      simp only [h1, except_bind_ok]
      exact h2
    · exact hperm1.trans (hperm2.cons id)

/-- `finish_multiline_labels` on a chunk whose finishing ids are
distinct and all present. -/
theorem finishMultilineLabels_state (cfg : Config) (w : ℕ) (st : WriterState)
    (chunk : BodyChunk) (hnd : chunk.finishing_multiline_labels.Nodup)
    (hpres : ∀ id ∈ chunk.finishing_multiline_labels, id ∈ slotIds st.slots) :
    ∃ r, finishMultilineLabels cfg w st chunk = .ok r ∧
      r.1.slots.length = st.slots.length ∧
      r.1.multiline_id = st.multiline_id ∧
      List.Perm (slotIds st.slots)
        (chunk.finishing_multiline_labels ++ slotIds r.1.slots) :=
  foldFinish_state cfg w chunk.finishing_multiline_labels st [] hnd hpres

/-- One chunk of the writer loop, under the slot invariants: the only
reachable panic is the subtraction/slicing one, and on success the
chunk's finishing ids leave the occupancy while its starting labels
enter it with the next sequential ids. -/
theorem processChunk_state (cfg : Config) (w t : ℕ) (st : WriterState)
    (chunk : BodyChunk)
    (hcap : (slotIds st.slots).length +
      chunk.starting_multiline_labels.length ≤ st.slots.length)
    (hnd : chunk.finishing_multiline_labels.Nodup)
    (hpres : ∀ id ∈ chunk.finishing_multiline_labels,
      id ∈ slotIds st.slots ∨
        (st.multiline_id ≤ id ∧
         id - st.multiline_id < chunk.starting_multiline_labels.length)) :
    (∀ e, processChunk cfg w t st chunk = .error e → e = .panicSub) ∧
    (∀ r, processChunk cfg w t st chunk = .ok r →
      r.1.slots.length = st.slots.length ∧
      r.1.multiline_id = st.multiline_id +
        chunk.starting_multiline_labels.length ∧
      List.Perm
        (chunk.finishing_multiline_labels ++ slotIds r.1.slots)
        (List.range' st.multiline_id
            chunk.starting_multiline_labels.length ++
          slotIds st.slots)) := by
  obtain ⟨st1, h1, hlen1, hmid1, hperm1⟩ :=
    foldAlloc_state chunk.starting_multiline_labels st hcap
  have h1' : startMultilineLabels st chunk = .ok st1 := h1
  have hsrc := emitSourceLine_state cfg w t st1 chunk
  unfold processChunk
  rw [h1']
  simp only [except_bind_ok]
  cases h2 : emitSourceLine cfg w t st1 chunk with
  | error e =>
    refine ⟨fun e' he' => ?_, fun r hr => ?_⟩
    · simp only [except_bind_error] at he'
      cases he'
      exact hsrc.1 e h2
    · simp only [except_bind_error] at hr
      cases hr
  | ok st2 =>
    have hst2 := hsrc.2 st2 h2
    simp only [except_bind_ok]
    have hsing := emitSinglelineLabels_state cfg w chunk.line
      chunk.finishing_multiline_labels chunk.singleline_labels st2
    cases h3 : emitSinglelineLabels cfg w st2 chunk with
    | error e =>
      refine ⟨fun e' he' => ?_, fun r hr => ?_⟩
      · simp only [except_bind_error] at he'
        cases he'
        exact hsing.1 e h3
      · simp only [except_bind_error] at hr
        cases hr
    | ok st3 =>
      have hst3 := hsing.2 st3 h3
      simp only [except_bind_ok]
      have hids3 : slotIds st3.slots = slotIds st1.slots :=
        hst3.1.trans hst2.1
      have hpres3 : ∀ id ∈ chunk.finishing_multiline_labels,
          id ∈ slotIds st3.slots := by
        intro id hid
        rw [hids3]
        rcases hpres id hid with h0 | h0
        · exact hperm1.mem_iff.mpr (List.mem_append_right _ h0)
        · refine hperm1.mem_iff.mpr (List.mem_append_left _ ?_)
          exact (List.mem_range'_1).mpr ⟨h0.1, by omega⟩
      obtain ⟨r, h4, hlen4, hmid4, hperm4⟩ :=
        finishMultilineLabels_state cfg w st3 chunk hnd hpres3
      rw [h4]
      refine ⟨fun e' he' => ?_, fun r' hr' => ?_⟩
      · cases he'
      · cases hr'
        refine ⟨?_, ?_, ?_⟩
        · rw [hlen4, hst3.2.1, hst2.2.1, hlen1]
        · rw [hmid4, hst3.2.2, hst2.2.2, hmid1]
        · refine hperm4.symm.trans ?_
          rw [hids3]
          exact hperm1

/-- The total finishing-id count of the first `k` chunks. -/
def finsUpTo (chunks : List BodyChunk) (k : ℕ) : ℕ :=
  ((chunks.take k).map
    (fun c => c.finishing_multiline_labels.length)).sum

theorem finsUpTo_zero (chunks : List BodyChunk) :
    finsUpTo chunks 0 = 0 := rfl

theorem finsUpTo_cons (c : BodyChunk) (cs : List BodyChunk) (k : ℕ) :
    finsUpTo (c :: cs) (k + 1) =
      c.finishing_multiline_labels.length + finsUpTo cs k := by
  simp [finsUpTo, List.take_succ_cons]

/-- The writer loop under the slot invariants: with the capacity bound,
distinct finishing ids that are each present or about to start, every
reachable error is the subtraction/slicing panic — the
`expect("has enough slots")` and the `finished_multiline.unwrap()` are
unreachable. -/
theorem runChunks_state (cfg : Config) (w t : ℕ) :
    ∀ (cs : List BodyChunk) (st : WriterState),
      (∀ k, k < cs.length →
        (slotIds st.slots).length + startsUpTo cs (k + 1) ≤
          st.slots.length + finsUpTo cs k) →
      (∀ k (hk : k < cs.length),
        ∀ id ∈ (cs.get ⟨k, hk⟩).finishing_multiline_labels,
          id ∈ slotIds st.slots ∨
            (st.multiline_id ≤ id ∧
             id - st.multiline_id < startsUpTo cs (k + 1))) →
      ((cs.map (fun c => c.finishing_multiline_labels)).join).Nodup →
      (∀ id ∈ slotIds st.slots, id < st.multiline_id) →
      ∀ e, runChunks cfg w t st cs = .error e → e = .panicSub := by
  intro cs
  induction cs with
  | nil =>
    intro st _ _ _ _ e he
    cases he
  | cons c cs ih =>
    intro st hcap hpres hnd hbound e he
    have hnd2 : (c.finishing_multiline_labels ++
        ((cs.map (fun c => c.finishing_multiline_labels)).join)).Nodup := hnd
    obtain ⟨hnd0, hndrest, hdisj⟩ := List.nodup_append.mp hnd2
    have hjoin : ∀ k (hk : k < cs.length) id,
        id ∈ (cs.get ⟨k, hk⟩).finishing_multiline_labels →
        id ∈ (cs.map (fun c => c.finishing_multiline_labels)).join := by
      intro k hk id hid
      exact List.mem_join.mpr
        ⟨(cs.get ⟨k, hk⟩).finishing_multiline_labels,
          List.mem_map_of_mem _ (List.get_mem cs k hk), hid⟩
    have hcap0 : (slotIds st.slots).length +
        c.starting_multiline_labels.length ≤ st.slots.length := by
      have h0 := hcap 0 (Nat.succ_pos _)
      rw [startsUpTo_cons, startsUpTo_zero, finsUpTo_zero] at h0
      omega
    have hpres0 : ∀ id ∈ c.finishing_multiline_labels,
        id ∈ slotIds st.slots ∨
          (st.multiline_id ≤ id ∧
           id - st.multiline_id < c.starting_multiline_labels.length) := by
      intro id hid
      have h0 := hpres 0 (Nat.succ_pos _) id hid
      rw [startsUpTo_cons, startsUpTo_zero] at h0
      rcases h0 with h0 | h0
      · exact Or.inl h0
      · exact Or.inr ⟨h0.1, by omega⟩
    have hps := processChunk_state cfg w t st c hcap0 hnd0 hpres0
    cases hpc : processChunk cfg w t st c with
    | error e1 =>
      have hrun : runChunks cfg w t st (c :: cs) = .error e1 := by
        simp [runChunks, hpc, except_bind_error]
      rw [hrun] at he
      cases he
      exact hps.1 _ hpc
    | ok r =>
      obtain ⟨hlenr, hmidr, hpermr⟩ := hps.2 r hpc
      have hlens : (slotIds r.1.slots).length +
          c.finishing_multiline_labels.length =
          c.starting_multiline_labels.length +
            (slotIds st.slots).length := by
        have hl := hpermr.length_eq
        simp only [List.length_append, List.length_range'] at hl
        omega
      have hcap' : ∀ k, k < cs.length →
          (slotIds r.1.slots).length + startsUpTo cs (k + 1) ≤
            r.1.slots.length + finsUpTo cs k := by
        intro k hk
        have h0 := hcap (k + 1) (Nat.succ_lt_succ hk)
        rw [startsUpTo_cons, finsUpTo_cons] at h0
        rw [hlenr]
        omega
      have hbound' : ∀ id ∈ slotIds r.1.slots, id < r.1.multiline_id := by
        intro id hid
        have hmem : id ∈ List.range' st.multiline_id
            c.starting_multiline_labels.length ++ slotIds st.slots :=
          hpermr.mem_iff.mp (List.mem_append_right _ hid)
        rw [hmidr]
        rcases List.mem_append.mp hmem with h0 | h0
        · have := (List.mem_range'_1).mp h0
          omega
        · have := hbound id h0
          omega
      have hpres' : ∀ k (hk : k < cs.length),
          ∀ id ∈ (cs.get ⟨k, hk⟩).finishing_multiline_labels,
            id ∈ slotIds r.1.slots ∨
              (r.1.multiline_id ≤ id ∧
               id - r.1.multiline_id < startsUpTo cs (k + 1)) := by
        intro k hk id hid
        have hnotc : id ∉ c.finishing_multiline_labels := by
          intro hidc
          exact hdisj hidc (hjoin k hk id hid)
        have h0 := hpres (k + 1) (Nat.succ_lt_succ hk) id hid
        rw [startsUpTo_cons] at h0
        rcases h0 with h0 | h0
        · have hmem : id ∈ c.finishing_multiline_labels ++
              slotIds r.1.slots :=
            hpermr.mem_iff.mpr (List.mem_append_right _ h0)
          rcases List.mem_append.mp hmem with h1 | h1
          · exact absurd h1 hnotc
          · exact Or.inl h1
        · by_cases hsplit : id < st.multiline_id +
              c.starting_multiline_labels.length
          · have hmem : id ∈ c.finishing_multiline_labels ++
                slotIds r.1.slots := by
              refine hpermr.mem_iff.mpr (List.mem_append_left _ ?_)
              exact (List.mem_range'_1).mpr ⟨h0.1, hsplit⟩
            rcases List.mem_append.mp hmem with h1 | h1
            · exact absurd h1 hnotc
            · exact Or.inl h1
          · refine Or.inr ⟨by rw [hmidr]; omega, by rw [hmidr]; omega⟩
      cases hrest : runChunks cfg w t r.1 cs with
      | error e2 =>
        have hrun : runChunks cfg w t st (c :: cs) = .error e2 := by
          simp [runChunks, hpc, hrest, except_bind_ok, except_bind_error]
        rw [hrun] at he
        cases he
        exact ih r.1 hcap' hpres' hndrest hbound' _ hrest
      | ok rest =>
        have hrun : runChunks cfg w t st (c :: cs) =
            .ok (rest.1, r.2 :: rest.2) := by
          simp [runChunks, hpc, hrest, except_bind_ok]
        rw [hrun] at he
        cases he

/-- The step of `calculate_maximum_parallel_labels`, named for the fold
lemmas below (definitionally the lambda of
`calculateMaximumParallelLabels`). -/
def cmStep (cm : ℕ × ℕ) (chunk : BodyChunk) : ℕ × ℕ :=
  (cm.1 + chunk.starting_multiline_labels.length -
     chunk.finishing_multiline_labels.length,
   max cm.2 (cm.1 + chunk.starting_multiline_labels.length))

theorem cmFold_snd_mono :
    ∀ (chunks : List BodyChunk) (init : ℕ × ℕ),
      init.2 ≤ (chunks.foldl cmStep init).2 := by
  intro chunks
  induction chunks with
  | nil => intro init; exact le_refl _
  | cons c cs ih =>
    intro init
    rw [List.foldl_cons]
    exact le_trans (le_max_left _ _) (ih (cmStep init c))

/-- The high-water mark dominates the running start/finish balance: at
every chunk the starts seen so far exceed the finishes seen before it
by at most the computed maximum. -/
theorem cmFold_capacity :
    ∀ (chunks : List BodyChunk) (init : ℕ × ℕ) (k : ℕ),
      k < chunks.length →
      init.1 + startsUpTo chunks (k + 1) ≤
        (chunks.foldl cmStep init).2 + finsUpTo chunks k := by
  intro chunks
  induction chunks with
  | nil => intro init k hk; cases hk
  | cons c cs ih =>
    intro init k hk
    rw [List.foldl_cons]
    cases k with
    | zero =>
      rw [startsUpTo_cons, startsUpTo_zero, finsUpTo_zero]
      have h1 : init.1 + c.starting_multiline_labels.length ≤
          (cmStep init c).2 := le_max_right _ _
      have h2 := cmFold_snd_mono cs (cmStep init c)
      omega
    | succ k =>
      rw [startsUpTo_cons, finsUpTo_cons]
      have h1 := ih (cmStep init c) k (Nat.lt_of_succ_lt_succ hk)
      have h2 : (cmStep init c).1 = init.1 +
          c.starting_multiline_labels.length -
          c.finishing_multiline_labels.length := rfl
      omega

/-- `calculate_maximum_parallel_labels` satisfies the capacity bound
used by the writer, for every chunk list. -/
theorem calcMax_capacity (chunks : List BodyChunk) (k : ℕ)
    (hk : k < chunks.length) :
    startsUpTo chunks (k + 1) ≤
      calculateMaximumParallelLabels chunks + finsUpTo chunks k := by
  have h := cmFold_capacity chunks (0, 0) k hk
  have he : calculateMaximumParallelLabels chunks =
      (chunks.foldl cmStep (0, 0)).2 := rfl
  omega

end Writer

/-- The descriptor-level facts feeding the writer's slot safety: every
finishing id is below the start count through its chunk, the finishing
lists are globally duplicate-free, and the stored slot budget is the
computed maximum. -/
theorem build_fins_facts (src : Source) (labels : List Label)
    (desc : BodyDescriptor) (hwf : src.WF)
    (hb : BodyDescriptor.build src labels = some desc) :
    (∀ k (hk : k < desc.chunks.length),
      ∀ id ∈ (desc.chunks.get ⟨k, hk⟩).finishing_multiline_labels,
        id < startsUpTo desc.chunks (k + 1)) ∧
    ((desc.chunks.map
      (fun c => c.finishing_multiline_labels)).join).Nodup ∧
    desc.maximum_parallel_labels =
      calculateMaximumParallelLabels desc.chunks := by
  unfold BodyDescriptor.build at hb
  cases he : emitEvents src (src.lines.length + 1) (labelStack labels)
      [] 0 0 USIZE_MAX with
  | none => rw [he, option_bind_none] at hb; cases hb
  | some r =>
    rw [he, option_bind_some] at hb
    cases hb
    dsimp only
    have hiff := emitEvents_fins_iff src hwf _ _ _ _ _ _ r 0 he
      (labelStack_sorted labels)
      (fun l _ k _ => Nat.zero_le k)
      (fun hne => absurd rfl hne)
      (fun p hp => absurd hp (List.not_mem_nil p))
    refine ⟨?_, ?_, rfl⟩
    · intro k hk id hid
      rcases (hiff k hk id).mp hid with ⟨sp, hsp, _⟩ | ⟨_, h2, _⟩
      · cases hsp
      · omega
    · have hsorted := emitEvents_fins_sorted src _ _ _ _ _ _ r he
        List.Pairwise.nil (fun p hp => absurd hp (List.not_mem_nil p))
      obtain ⟨_, hchain⟩ := emitEvents_chain src hwf _ _ _ _ _ _ r 0 he
        (labelStack_sorted labels)
        (fun l _ k _ => Nat.zero_le k)
        (fun hne => absurd rfl hne)
      have htrans : IsTrans BodyChunk (fun a b =>
          a.line.index < b.line.index) := ⟨fun a b c h1 h2 => lt_trans h1 h2⟩
      have hpw := (@List.chain'_iff_pairwise BodyChunk _ htrans r.1).mp hchain
      have hlines := List.pairwise_iff_get.mp hpw
      rw [List.nodup_join]
      constructor
      · intro l hl
        obtain ⟨c, hc, rfl⟩ := List.mem_map.mp hl
        exact (hsorted c hc).imp (fun h => Nat.ne_of_lt h)
      · rw [List.pairwise_map, List.pairwise_iff_get]
        intro i j hij
        intro id hidi hidj
        rcases (hiff i.1 i.2 id).mp hidi with ⟨sp, hsp, _⟩ |
          ⟨_, _, lab, hget, hline⟩
        · cases hsp
        rcases (hiff j.1 j.2 id).mp hidj with ⟨sp, hsp, _⟩ |
          ⟨_, _, lab', hget', hline'⟩
        · cases hsp
        have hlab : lab = lab' := by
          rw [hget] at hget'
          exact Option.some.inj hget'
        rw [← hlab] at hline'
        rw [hline] at hline'
        have heq := Option.some.inj hline'
        exact absurd heq (Nat.ne_of_lt (hlines i j hij))

/-- Claim C2: for every label set the sweep accepts, the number of
simultaneously occupied rendering slots never exceeds the precomputed
`maximum_parallel_labels`: allocating a starting multi-line label
always finds a free slot, so the fatal `expect("has enough slots")` of
`allocate_multiline` (and likewise the `unwrap` of a finishing label's
slot) is unreachable — the only panic the writer can reach is the
subtraction/slicing one of the emit steps. -/
theorem c2_no_slot_overflow (src : Source) (labels : List Label)
    (desc : BodyDescriptor) (cfg : Config) (hwf : src.WF)
    (hb : BodyDescriptor.build src labels = some desc) :
    ∀ e, desc.writeTo cfg = .error e → e = .panicSub := by
  obtain ⟨hbound, hnodup, hM⟩ := build_fins_facts src labels desc hwf hb
  have hmax : ∀ k, k < desc.chunks.length →
      startsUpTo desc.chunks (k + 1) ≤
        desc.maximum_parallel_labels + Writer.finsUpTo desc.chunks k := by
    intro k hk
    rw [hM]
    exact Writer.calcMax_capacity desc.chunks k hk
  intro e he
  unfold BodyDescriptor.writeTo at he
  refine Writer.runChunks_state cfg desc.line_number_width desc.indent_trim
    desc.chunks _ ?_ ?_ ?_ ?_ e he
  · intro k hk
    show (Writer.slotIds
        (List.replicate desc.maximum_parallel_labels none)).length +
        startsUpTo desc.chunks (k + 1) ≤
      (List.replicate desc.maximum_parallel_labels none).length +
        Writer.finsUpTo desc.chunks k
    rw [Writer.slotIds_replicate_none, List.length_replicate]
    simpa using hmax k hk
  · intro k hk id hid
    refine Or.inr ⟨Nat.zero_le id, ?_⟩
    show id - 0 < startsUpTo desc.chunks (k + 1)
    have := hbound k hk id hid
    omega
  · exact hnodup
  · intro id hid
    have h0 : id ∈ Writer.slotIds
        (List.replicate desc.maximum_parallel_labels none) := hid
    rw [Writer.slotIds_replicate_none] at h0
    cases h0

/-- Claim C2 witness: the concrete three-label scenario renders
successfully, and the general theorem instantiated there rules out the
fatal slot branches. -/
theorem c2_witness :
    ((((BodyDescriptor.build scratchSrcC scratchLabelsC).getD
        ⟨[], 0, 0, 0⟩).writeTo Config.default).isOk = true) ∧
    (∀ e, (((BodyDescriptor.build scratchSrcC scratchLabelsC).getD
        ⟨[], 0, 0, 0⟩).writeTo Config.default) = .error e →
      e = RenderError.panicSub) :=
  ⟨by rfl, c2_no_slot_overflow scratchSrcC scratchLabelsC
    ((BodyDescriptor.build scratchSrcC scratchLabelsC).getD ⟨[], 0, 0, 0⟩)
    Config.default (by rfl) (by rfl)⟩

/-- Claim C7: in `emit_singleline_labels` the underline's end offset is
`min(label.span.end(), line.text().len()) - dedented_span.start()`,
mixing the absolute span end with the line-local text length; whenever
a chunk carries a single-line label on a line whose dedented start
offset exceeds the line's own text byte length, that subtraction
underflows (its minuend is strictly below `local_base`) and the render
of the descriptor panics instead of emitting the underline row. -/
theorem c7_singleline_underline_underflow (src : Source) (labels : List Label)
    (desc : BodyDescriptor) (cfg : Config) (chunk : BodyChunk)
    (hb : BodyDescriptor.build src labels = some desc)
    (hc : chunk ∈ desc.chunks)
    (hne : chunk.singleline_labels ≠ [])
    (hcond : chunk.line.text.length < chunk.line.dedented_span.start) :
    (∀ label ∈ chunk.singleline_labels,
      min label.span.stop chunk.line.text.length < chunk.line.dedented_span.start) ∧
    ∃ e, desc.writeTo cfg = .error e := by
  constructor
  · intro label _
    have := min_le_right label.span.stop chunk.line.text.length
    omega
  · exact Writer.runChunks_error_of_mem hc
      (Writer.processChunk_error hne hcond) _

/-- Claim C7 witness: the source `"abcdefghij\nxy"` with the
single-line label over bytes 11..13: line 1 has dedented start 11 and
text length 2, and the render panics. -/
theorem c7_witness :
    (∀ label ∈ (((BodyDescriptor.build scratchSrcD [scratchLabel 11 13]).getD
        ⟨[], 0, 0, 0⟩).chunks.headD ⟨⟨0, 0, ⟨0, 0⟩, ⟨0, 0⟩, []⟩, [], [], []⟩).singleline_labels,
      min label.span.stop 2 < 11) ∧
    ∃ e, ((BodyDescriptor.build scratchSrcD [scratchLabel 11 13]).getD
        ⟨[], 0, 0, 0⟩).writeTo Config.default = .error e := by
  have h := c7_singleline_underline_underflow scratchSrcD [scratchLabel 11 13]
    ((BodyDescriptor.build scratchSrcD [scratchLabel 11 13]).getD ⟨[], 0, 0, 0⟩)
    Config.default
    (((BodyDescriptor.build scratchSrcD [scratchLabel 11 13]).getD
        ⟨[], 0, 0, 0⟩).chunks.headD ⟨⟨0, 0, ⟨0, 0⟩, ⟨0, 0⟩, []⟩, [], [], []⟩)
    (by rfl) (by decide) (by decide) (by decide)
  exact h

/-- Claim C4: in a render produced by the sweep, `indent_trim` equals
the minimum indent width over all non-empty emitted lines (an empty
line is excluded from the minimum); every emitted chunk's margin
computation in `emit_source_line` succeeds and yields the line's own
indent width minus `indent_trim`, which never underflows (the trim
never exceeds the indent of a non-empty emitted line), and an empty
line gets margin 0.  (`4 * buffer length < usize::MAX` reflects the
machine bound on indent widths.) -/
theorem c4_indent_trim_margins (src : Source) (labels : List Label)
    (desc : BodyDescriptor)
    (hwf : src.WF)
    (hb : BodyDescriptor.build src labels = some desc)
    (hbound : 4 * src.src.length < USIZE_MAX) :
    (∀ c ∈ desc.chunks,
      Writer.sourceLineMargin desc.indent_trim c.line =
        .ok (if c.line.text.isEmpty then 0
             else c.line.indent_size - desc.indent_trim) ∧
      (¬ c.line.text.isEmpty → desc.indent_trim ≤ c.line.indent_size)) ∧
    ((desc.chunks.filter (fun c => !c.line.text.isEmpty)).map
        (fun c => c.line.indent_size) ≠ [] →
      desc.indent_trim ∈
        (desc.chunks.filter (fun c => !c.line.text.isEmpty)).map
          (fun c => c.line.indent_size) ∧
      ∀ w ∈ (desc.chunks.filter (fun c => !c.line.text.isEmpty)).map
          (fun c => c.line.indent_size), desc.indent_trim ≤ w) := by
  unfold BodyDescriptor.build at hb
  cases he : emitEvents src (src.lines.length + 1) (labelStack labels)
      [] 0 0 USIZE_MAX with
  | none => rw [he, option_bind_none] at hb; cases hb
  | some r =>
    rw [he, option_bind_some] at hb
    cases hb
    obtain ⟨htrim, hmem⟩ := emitEvents_trim_mem src _ _ _ _ _ _ _ he
    have hindlt : ∀ c ∈ r.1, c.line.indent_size < USIZE_MAX := by
      intro c hc
      have h1 := hwf.indent_le c.line (hmem c hc)
      omega
    have hle : ∀ c ∈ r.1, ¬ c.line.text.isEmpty →
        r.2 ≤ c.line.indent_size := by
      intro c hc hne
      rw [htrim]
      exact trimFold_le r.1 USIZE_MAX c hc hne
    constructor
    · intro c hc
      refine ⟨?_, hle c hc⟩
      by_cases hne : c.line.text.isEmpty
      · simp [Writer.sourceLineMargin, hne]
      · have := hle c hc hne
        simp [Writer.sourceLineMargin, hne, checkSub, this]
    · intro hne
      have hex : ∃ c ∈ r.1, ¬ c.line.text.isEmpty := by
        rcases List.exists_mem_of_ne_nil _ hne with ⟨w, hw⟩
        rcases List.mem_map.mp hw with ⟨c, hc, _⟩
        rcases List.mem_filter.mp hc with ⟨hc1, hc2⟩
        exact ⟨c, hc1, by simpa using hc2⟩
      constructor
      · rcases trimFold_mem r.1 USIZE_MAX with hcase | ⟨c, hc, hcne, hceq⟩
        · exfalso
          rcases hex with ⟨c, hc, hcne⟩
          have h1 := hle c hc hcne
          have h2 := hindlt c hc
          omega
        · exact List.mem_map.mpr ⟨c,
            List.mem_filter.mpr ⟨hc, by simpa using hcne⟩,
            (htrim.trans hceq).symm⟩
      · intro w hw
        rcases List.mem_map.mp hw with ⟨c, hc, rfl⟩
        rcases List.mem_filter.mp hc with ⟨hc1, hc2⟩
        exact hle c hc1 (by simpa using hc2)

/-- Claim C4 witness: the three-label multiline scenario over five
one-byte lines has `indent_trim = 0`, the minimum over its non-empty
lines, and every margin succeeds. -/
theorem c4_witness :
    (∀ c ∈ ((BodyDescriptor.build scratchSrcC scratchLabelsC).getD
        ⟨[], 0, 0, 0⟩).chunks,
      Writer.sourceLineMargin ((BodyDescriptor.build scratchSrcC
          scratchLabelsC).getD ⟨[], 0, 0, 0⟩).indent_trim c.line =
        .ok (if c.line.text.isEmpty then 0
             else c.line.indent_size -
               ((BodyDescriptor.build scratchSrcC scratchLabelsC).getD
                 ⟨[], 0, 0, 0⟩).indent_trim) ∧
      (¬ c.line.text.isEmpty →
        ((BodyDescriptor.build scratchSrcC scratchLabelsC).getD
          ⟨[], 0, 0, 0⟩).indent_trim ≤ c.line.indent_size)) ∧
    ((((BodyDescriptor.build scratchSrcC scratchLabelsC).getD
          ⟨[], 0, 0, 0⟩).chunks.filter (fun c => !c.line.text.isEmpty)).map
        (fun c => c.line.indent_size) ≠ [] →
      ((BodyDescriptor.build scratchSrcC scratchLabelsC).getD
          ⟨[], 0, 0, 0⟩).indent_trim ∈
        (((BodyDescriptor.build scratchSrcC scratchLabelsC).getD
            ⟨[], 0, 0, 0⟩).chunks.filter (fun c => !c.line.text.isEmpty)).map
          (fun c => c.line.indent_size) ∧
      ∀ w ∈ (((BodyDescriptor.build scratchSrcC scratchLabelsC).getD
            ⟨[], 0, 0, 0⟩).chunks.filter (fun c => !c.line.text.isEmpty)).map
          (fun c => c.line.indent_size),
        ((BodyDescriptor.build scratchSrcC scratchLabelsC).getD
          ⟨[], 0, 0, 0⟩).indent_trim ≤ w) :=
  c4_indent_trim_margins scratchSrcC scratchLabelsC
    ((BodyDescriptor.build scratchSrcC scratchLabelsC).getD ⟨[], 0, 0, 0⟩)
    (by rfl) (by rfl) (by decide)

/-! Claim C8: span construction. -/

/-- Claim C8 counterexample: `start = end = u32::MAX` satisfies
`start <= end` yet `SourceSpan::new` panics (the `NonMaxU32`
conversion), so construction does not succeed for every `u32` pair
with `start <= end`. -/
theorem c8_counterexample :
    U32_MAX ≤ U32_MAX ∧ U32_MAX < 2 ^ 32 ∧
      SourceSpan.new U32_MAX U32_MAX = none := by decide

/-- Claim C8 (amended): `SourceSpan::new(start, end)` panics when
`end < start`; for `u32` values with `start <= end` it succeeds if and
only if `start` is not `u32::MAX` (which the packed `NonMaxU32` start
cannot represent), and then it stores the pair unchanged. -/
theorem c8_span_new (start stop : ℕ)
    (hs : start < 2 ^ 32) (he : stop < 2 ^ 32) :
    (stop < start → SourceSpan.new start stop = none) ∧
    (start ≤ stop → ((SourceSpan.new start stop).isSome ↔ start ≠ U32_MAX)) ∧
    (∀ sp, SourceSpan.new start stop = some sp →
      sp.start = start ∧ sp.stop = stop) := by
  refine ⟨?_, ?_, ?_⟩
  · intro h
    have : ¬ start ≤ stop := by omega
    simp [SourceSpan.new, this]
  · intro h
    by_cases hm : start = U32_MAX <;> simp [SourceSpan.new, h, hm]
  · intro sp hsp
    unfold SourceSpan.new at hsp
    split_ifs at hsp with h1 h2
    · cases hsp; exact ⟨rfl, rfl⟩

/-- Claim C8 witness: `new 3 7` succeeds. -/
theorem c8_witness : (SourceSpan.new 3 7).isSome ↔ (3:ℕ) ≠ U32_MAX :=
  (c8_span_new 3 7 (by decide) (by decide)).2.1 (by decide)

/-! Claim C9: display width. -/

theorem grapheme_width_eq_spec (ea : Grapheme → ℕ) (g : Grapheme) :
    grapheme_width ea g = specGraphemeWidth ea g := by
  unfold grapheme_width specGraphemeWidth
  by_cases h1 : g = TAB
  · simp [h1]
  · by_cases h2 : g = ZERO_WIDTH_JOINER ∨ g = VARIATION_SELECTOR_16
    · simp [h1, h2]
    · by_cases h3 : ZWJ_CHAR ∈ g
      · simp [h1, h2, h3]
      · by_cases h4 : SKIN_TONES.any (fun c => c ∈ g)
        · simp [h1, h2, h3, h4]
        · simp [h1, h2, h3, h4]

/-- Claim C9: for every string (given by its grapheme-cluster
segmentation `gs` and the external east-asian-width function `ea`),
`dislay_width` equals the sum over the clusters of: 4 for a tab; 0 for
a cluster that is exactly a zero-width joiner or variation-selector-16;
2 for any other cluster containing a zero-width joiner or one of the
five skin-tone modifiers; and otherwise the standard east-asian-width
of the cluster (`specGraphemeWidth`, worded from the spec). -/
theorem c9_dislay_width (ea : Grapheme → ℕ) (gs : List Grapheme) :
    dislay_width ea gs = (gs.map (specGraphemeWidth ea)).sum := by
  unfold dislay_width
  rw [funext (grapheme_width_eq_spec ea)]

/-! Claim C10: determinism of the full-layout render. -/

/-- Two successive calls of the full-layout entry point on the same
diagnostic and configuration, appending to the same sink, exactly as a
caller would repeat a render. -/
def writeTwice (d : Diagnostic) (cfg : Config) :
    Except RenderError (List String) := do
  let o1 ← d.write_to cfg
  let o2 ← d.write_to cfg
  .ok (o1 ++ o2)

/-- Claim C10: rendering the same `(source, labels, config)` twice with
the full-layout entry point produces byte-identical output: the second
half of a double render is the first half repeated, the render being a
pure function of the diagnostic and configuration with no hidden
state. -/
theorem c10_write_to_deterministic (d : Diagnostic) (cfg : Config)
    (out : List String) (h : writeTwice d cfg = .ok out) :
    ∃ once, d.write_to cfg = .ok once ∧ out = once ++ once := by
  unfold writeTwice at h
  cases h1 : d.write_to cfg with
  | error e => rw [h1] at h; cases h
  | ok o =>
    rw [h1] at h
    refine ⟨o, rfl, ?_⟩
    cases h
    rfl

/-- Claim C10 witness: a concrete double render splits into two equal
halves. -/
theorem c10_witness :
    ∃ once, Diagnostic.write_to ⟨"m", [scratchLabel 0 5], ["f"], scratchSrcA⟩
        Config.default = .ok once ∧
      (writeTwice ⟨"m", [scratchLabel 0 5], ["f"], scratchSrcA⟩
        Config.default).toOption.getD [] = once ++ once :=
  c10_write_to_deterministic ⟨"m", [scratchLabel 0 5], ["f"], scratchSrcA⟩
    Config.default
    ((writeTwice ⟨"m", [scratchLabel 0 5], ["f"], scratchSrcA⟩
      Config.default).toOption.getD []) (by rfl)

end Yumy
